import Mathlib

/-!
Verification development for the duplicate-reviewer plugin core.

The TypeScript sources are shallowly embedded: strings are `String`/`List Char`,
JS numbers used as similarity scores are `ℚ`, JS `Set`/`Map` become `Finset`,
association lists, or deduplicating list folds (preserving insertion order where
the code observes it), and fallible I/O is `Option`-valued environment
functions.  JS `toLowerCase` is modelled on the ASCII range, which is the only
range the word-character class `\w = [A-Za-z0-9_]` retains.
-/

namespace DupReview

/-- Character class of the JS regex `\w`, i.e. `[A-Za-z0-9_]`. -/
def isWordChar (c : Char) : Bool :=
  decide (('a' ≤ c ∧ c ≤ 'z') ∨ ('A' ≤ c ∧ c ≤ 'Z') ∨ ('0' ≤ c ∧ c ≤ '9') ∨ c = '_')

/-- Character class of the JS regex `\s` (JS whitespace, also used by `trim`). -/
def isSpaceJS (c : Char) : Bool :=
  decide (c = ' ' ∨ c = '\t' ∨ c = '\n' ∨ c = '\u000b' ∨ c = '\u000c' ∨ c = '\r' ∨
          c = ' ' ∨ c = ' ' ∨ (0x2000 ≤ c.toNat ∧ c.toNat ≤ 0x200A) ∨
          c = ' ' ∨ c = ' ' ∨ c = ' ' ∨ c = ' ' ∨ c = '　' ∨
          c = '﻿')

/-- ASCII uppercase letter, the `[A-Z]` class. -/
def isUpperAZ (c : Char) : Bool :=
  decide ('A' ≤ c ∧ c ≤ 'Z')

/-- ASCII digit, the `\d` class. -/
def isDigit09 (c : Char) : Bool :=
  decide ('0' ≤ c ∧ c ≤ '9')

/-- ASCII model of JS `toLowerCase` (sufficient for the `\w` range kept later). -/
def asciiToLower (c : Char) : Char :=
  if 'A' ≤ c ∧ c ≤ 'Z' then Char.ofNat (c.toNat + 32) else c

/-- Model of `normalized.replace(/\.md$/i, "")`: drop a trailing `.md`
(case-insensitive on the letters). -/
def stripMdExt (l : List Char) : List Char :=
  match l.reverse with
  | c1 :: c2 :: c3 :: rest =>
    if (c1 = 'd' ∨ c1 = 'D') ∧ (c2 = 'm' ∨ c2 = 'M') ∧ c3 = '.' then rest.reverse else l
  | _ => l

/-- Match of the regex tail `[A-Z]{2,4}\d+\]?\s*` at the head of `l`; returns the
remainder on success.  Greedy matching with backtracking collapses to: the full
leading uppercase run must have length 2–4 and be followed by a digit. -/
def stripCodeCore (l : List Char) : Option (List Char) :=
  let letters := l.takeWhile isUpperAZ
  let rest := l.dropWhile isUpperAZ
  if 2 ≤ letters.length ∧ letters.length ≤ 4 then
    match rest with
    | c :: _ =>
      if isDigit09 c then
        let rest2 := rest.dropWhile isDigit09
        let rest3 := match rest2 with
          | ']' :: t => t
          | _ => rest2
        some (rest3.dropWhile isSpaceJS)
      else none
    | [] => none
  else none

/-- Model of `normalized.replace(/^\[?[A-Z]{2,4}\d+\]?\s*/, "")`.  When the string
starts with `[` the optional bracket must be consumed (the alternative would
require `[A-Z]` to match `[`, which fails). -/
def stripCodePre (l : List Char) : List Char :=
  if l.head? = some '[' then (stripCodeCore l.tail).getD l
  else (stripCodeCore l).getD l

/-- Model of `normalized.replace(/^\d+\.\d+\s*/, "")`. -/
def stripNumPre (l : List Char) : List Char :=
  let d1 := l.takeWhile isDigit09
  let r1 := l.dropWhile isDigit09
  if d1 = [] then l
  else
    match r1 with
    | '.' :: r2 =>
      let d2 := r2.takeWhile isDigit09
      if d2 = [] then l else (r2.dropWhile isDigit09).dropWhile isSpaceJS
    | _ => l

/-- Model of `normalized.replace(/[^\w\s]/g, "")`. -/
def removeNonWord (l : List Char) : List Char :=
  l.filter (fun c => isWordChar c || isSpaceJS c)

/-- Split on individual whitespace characters; with the empty-token filter below
this agrees with JS `split(/\s+/).filter(Boolean)`. -/
def splitWsAux : List Char → List Char → List (List Char)
  | acc, [] => [acc.reverse]
  | acc, c :: cs => if isSpaceJS c then acc.reverse :: splitWsAux [] cs
                    else splitWsAux (c :: acc) cs

/-- Non-empty whitespace-separated tokens of a character list, in order:
`normalized.split(/\s+/).filter(Boolean)`. -/
def wordsOf (l : List Char) : List (List Char) :=
  (splitWsAux [] l).filter (fun w => !w.isEmpty)

/-- Model of `.join(" ")`. -/
def joinSpace : List (List Char) → List Char
  | [] => []
  | [w] => w
  | w :: ws => w ++ ' ' :: joinSpace ws

/-- The `normalizeTitle` pipeline at the character-list level, in source order:
extension strip, code-prefixed index strip, decimal index strip, lowercase,
punctuation removal, whitespace normalization. -/
def normalizeChars (l : List Char) : List Char :=
  joinSpace (wordsOf (removeNonWord ((stripNumPre (stripCodePre (stripMdExt l))).map
    asciiToLower)))

/-- Embedding of `normalizeTitle` (src/similarity, `part_002`). -/
def normalizeTitle (s : String) : String :=
  String.mk (normalizeChars s.data)

example : normalizeTitle "EAD0001 Meeting Notes.md" = "meeting notes" := by decide
example : normalizeTitle "250.25 Budget Plan" = "budget plan" := by decide
example : normalizeTitle "[AB12] Hello,  World!" = "hello world" := by decide

/-! ### Character-level bridges used by the idempotence proof -/

theorem char_le_iff_toNat (a b : Char) : a ≤ b ↔ a.toNat ≤ b.toNat := by
  rw [Char.le_def, UInt32.le_def, BitVec.le_def]
  exact Iff.rfl

theorem char_eq_iff_toNat (a b : Char) : a = b ↔ a.toNat = b.toNat := by
  constructor
  · intro h; rw [h]
  · intro h
    apply Char.eq_of_val_eq
    apply UInt32.eq_of_toBitVec_eq
    exact BitVec.eq_of_toNat_eq h

theorem char_ofNat_toNat {n : ℕ} (h : n < 0xd800) : (Char.ofNat n).toNat = n := by
  rw [Char.ofNat]
  split
  · rfl
  · next hv =>
    exact absurd (Or.inl h) hv

theorem isWordChar_iff (c : Char) :
    isWordChar c = true ↔
      (97 ≤ c.toNat ∧ c.toNat ≤ 122) ∨ (65 ≤ c.toNat ∧ c.toNat ≤ 90) ∨
      (48 ≤ c.toNat ∧ c.toNat ≤ 57) ∨ c.toNat = 95 := by
  unfold isWordChar
  rw [decide_eq_true_iff]
  simp only [char_le_iff_toNat, char_eq_iff_toNat]
  exact Iff.rfl

theorem isUpperAZ_iff (c : Char) :
    isUpperAZ c = true ↔ 65 ≤ c.toNat ∧ c.toNat ≤ 90 := by
  unfold isUpperAZ
  rw [decide_eq_true_iff]
  simp only [char_le_iff_toNat]
  exact Iff.rfl

theorem isDigit09_iff (c : Char) :
    isDigit09 c = true ↔ 48 ≤ c.toNat ∧ c.toNat ≤ 57 := by
  unfold isDigit09
  rw [decide_eq_true_iff]
  simp only [char_le_iff_toNat]
  exact Iff.rfl

theorem isSpaceJS_iff (c : Char) :
    isSpaceJS c = true ↔
      (c.toNat = 32 ∨ c.toNat = 9 ∨ c.toNat = 10 ∨ c.toNat = 11 ∨ c.toNat = 12 ∨
       c.toNat = 13 ∨ c.toNat = 0xa0 ∨ c.toNat = 0x1680 ∨
       (0x2000 ≤ c.toNat ∧ c.toNat ≤ 0x200A) ∨ c.toNat = 0x2028 ∨ c.toNat = 0x2029 ∨
       c.toNat = 0x202f ∨ c.toNat = 0x205f ∨ c.toNat = 0x3000 ∨ c.toNat = 0xfeff) := by
  unfold isSpaceJS
  rw [decide_eq_true_iff]
  simp only [char_eq_iff_toNat]
  constructor
  · intro h
    revert h
    exact fun h => by tauto
  · intro h
    revert h
    exact fun h => by tauto

/-- A fully-normalized word character: in `\w`, not uppercase, not whitespace. -/
def lwChar (c : Char) : Prop :=
  isWordChar c = true ∧ isUpperAZ c = false ∧ isSpaceJS c = false

theorem lwChar_iff (c : Char) :
    lwChar c ↔ (97 ≤ c.toNat ∧ c.toNat ≤ 122) ∨ (48 ≤ c.toNat ∧ c.toNat ≤ 57) ∨
      c.toNat = 95 := by
  unfold lwChar
  rw [Bool.eq_false_iff, Bool.eq_false_iff, ne_eq, ne_eq, isWordChar_iff, isUpperAZ_iff,
    isSpaceJS_iff]
  omega

theorem lwChar_not_space {c : Char} (h : lwChar c) : isSpaceJS c = false :=
  h.2.2

theorem lwChar_ne_dot {c : Char} (h : lwChar c) : c ≠ '.' := by
  intro hc
  rw [lwChar_iff] at h
  have : c.toNat = 46 := (char_eq_iff_toNat c '.').mp hc
  omega

theorem lwChar_ne_bracket {c : Char} (h : lwChar c) : c ≠ '[' := by
  intro hc
  rw [lwChar_iff] at h
  have : c.toNat = 91 := (char_eq_iff_toNat c '[').mp hc
  omega

theorem lwChar_not_upper {c : Char} (h : lwChar c) : isUpperAZ c = false :=
  h.2.1

theorem asciiToLower_toNat (c : Char) :
    (asciiToLower c).toNat =
      if 65 ≤ c.toNat ∧ c.toNat ≤ 90 then c.toNat + 32 else c.toNat := by
  unfold asciiToLower
  by_cases h : 'A' ≤ c ∧ c ≤ 'Z'
  · have h' : 65 ≤ c.toNat ∧ c.toNat ≤ 90 := by
      constructor
      · exact (char_le_iff_toNat 'A' c).mp h.1
      · exact (char_le_iff_toNat c 'Z').mp h.2
    rw [if_pos h, if_pos h']
    exact char_ofNat_toNat (by omega)
  · have h' : ¬(65 ≤ c.toNat ∧ c.toNat ≤ 90) := by
      intro hc
      exact h ⟨(char_le_iff_toNat 'A' c).mpr hc.1, (char_le_iff_toNat c 'Z').mpr hc.2⟩
    rw [if_neg h, if_neg h']

theorem asciiToLower_not_upper (c : Char) : isUpperAZ (asciiToLower c) = false := by
  rw [Bool.eq_false_iff, ne_eq, isUpperAZ_iff, asciiToLower_toNat]
  by_cases h : 65 ≤ c.toNat ∧ c.toNat ≤ 90
  · rw [if_pos h]; omega
  · rw [if_neg h]; omega

theorem asciiToLower_eq_self {c : Char} (h : isUpperAZ c = false) : asciiToLower c = c := by
  unfold asciiToLower
  rw [if_neg]
  intro hc
  rw [Bool.eq_false_iff, ne_eq, isUpperAZ_iff] at h
  exact h ⟨(char_le_iff_toNat 'A' c).mp hc.1, (char_le_iff_toNat c 'Z').mp hc.2⟩

/-! ### Split/join round-trip lemmas -/

theorem mem_joinSpace {c : Char} :
    ∀ {ws : List (List Char)}, c ∈ joinSpace ws → (∃ w ∈ ws, c ∈ w) ∨ c = ' '
  | [], h => by simp [joinSpace] at h
  | [w], h => by
      rw [show joinSpace [w] = w from rfl] at h
      exact Or.inl ⟨w, List.mem_singleton_self w, h⟩
  | w :: w' :: t, h => by
      rw [show joinSpace (w :: w' :: t) = w ++ ' ' :: joinSpace (w' :: t) from rfl] at h
      rcases List.mem_append.mp h with h1 | h2
      · exact Or.inl ⟨w, List.mem_cons_self _ _, h1⟩
      · rcases List.mem_cons.mp h2 with h3 | h4
        · exact Or.inr h3
        · rcases mem_joinSpace h4 with ⟨u, hu, hcu⟩ | hsp
          · exact Or.inl ⟨u, List.mem_cons_of_mem _ hu, hcu⟩
          · exact Or.inr hsp

theorem joinSpace_cons_decomp (w : List Char) (t : List (List Char)) :
    ∃ rest, joinSpace (w :: t) = w ++ rest := by
  cases t with
  | nil => exact ⟨[], (List.append_nil w).symm⟩
  | cons w' t' => exact ⟨' ' :: joinSpace (w' :: t'), rfl⟩

theorem splitWsAux_nil (acc : List Char) : splitWsAux acc [] = [acc.reverse] := rfl

theorem splitWsAux_cons (acc : List Char) (b : Char) (cs : List Char) :
    splitWsAux acc (b :: cs) =
      if isSpaceJS b then acc.reverse :: splitWsAux [] cs
      else splitWsAux (b :: acc) cs := rfl

theorem splitWsAux_chars {Q : Char → Prop} :
    ∀ (l acc : List Char), (∀ c ∈ acc, Q c) →
      (∀ c ∈ l, isSpaceJS c = false → Q c) →
      ∀ w ∈ splitWsAux acc l, ∀ c ∈ w, Q c
  | [], acc, hacc, _, w, hw, c, hc => by
      rw [show splitWsAux acc [] = [acc.reverse] from rfl] at hw
      rw [List.mem_singleton.mp hw] at hc
      exact hacc c (List.mem_reverse.mp hc)
  | b :: cs, acc, hacc, hl, w, hw, c, hc => by
      rw [show splitWsAux acc (b :: cs) =
        (if isSpaceJS b then acc.reverse :: splitWsAux [] cs
         else splitWsAux (b :: acc) cs) from rfl] at hw
      by_cases hb : isSpaceJS b
      · rw [if_pos hb] at hw
        rcases List.mem_cons.mp hw with h1 | h2
        · rw [h1] at hc
          exact hacc c (List.mem_reverse.mp hc)
        · exact splitWsAux_chars cs [] (by simp)
            (fun d hd hds => hl d (List.mem_cons_of_mem _ hd) hds) w h2 c hc
      · rw [if_neg hb] at hw
        refine splitWsAux_chars cs (b :: acc) ?_
          (fun d hd hds => hl d (List.mem_cons_of_mem _ hd) hds) w hw c hc
        intro d hd
        rcases List.mem_cons.mp hd with h1 | h2
        · rw [h1]
          exact hl b (List.mem_cons_self _ _) (Bool.eq_false_iff.mpr hb)
        · exact hacc d h2

theorem splitWsAux_nonspace_run :
    ∀ (w : List Char), (∀ c ∈ w, isSpaceJS c = false) →
      ∀ (acc rest : List Char), splitWsAux acc (w ++ rest) = splitWsAux (w.reverse ++ acc) rest
  | [], _, acc, rest => by simp
  | b :: cs, hw, acc, rest => by
      have hb : isSpaceJS b = false := hw b (List.mem_cons_self _ _)
      rw [List.cons_append,
        show splitWsAux acc (b :: (cs ++ rest)) =
          (if isSpaceJS b then acc.reverse :: splitWsAux [] (cs ++ rest)
           else splitWsAux (b :: acc) (cs ++ rest)) from rfl,
        if_neg (by rw [hb]; exact Bool.false_ne_true),
        splitWsAux_nonspace_run cs (fun c hc => hw c (List.mem_cons_of_mem _ hc)) (b :: acc)
          rest]
      congr 1
      simp

theorem wordsOf_joinSpace :
    ∀ (ws : List (List Char)),
      (∀ w ∈ ws, w ≠ [] ∧ ∀ c ∈ w, isSpaceJS c = false) →
      wordsOf (joinSpace ws) = ws
  | [], _ => by simp [wordsOf, joinSpace, splitWsAux]
  | [w], h => by
      obtain ⟨hne, hns⟩ := h w (List.mem_singleton_self w)
      unfold wordsOf
      rw [show joinSpace [w] = w from rfl,
        show w = w ++ ([] : List Char) by simp,
        splitWsAux_nonspace_run w hns [] [],
        splitWsAux_nil]
      simp [hne]
  | w :: w' :: t, h => by
      obtain ⟨hne, hns⟩ := h w (List.mem_cons_self _ _)
      have ih := wordsOf_joinSpace (w' :: t) (fun u hu => h u (List.mem_cons_of_mem _ hu))
      unfold wordsOf at ih ⊢
      rw [show joinSpace (w :: w' :: t) = w ++ ' ' :: joinSpace (w' :: t) from rfl,
        splitWsAux_nonspace_run w hns [] (' ' :: joinSpace (w' :: t)),
        splitWsAux_cons, if_pos (by decide)]
      rw [List.filter_cons]
      simp only [List.append_nil, List.reverse_reverse]
      rw [if_pos (by simpa using hne)]
      rw [ih]

/-! ### Each pipeline stage fixes an already-normalized string -/

theorem stripMdExt_eq_self {l : List Char} (h : '.' ∉ l) : stripMdExt l = l := by
  unfold stripMdExt
  split
  · next c1 c2 c3 rest heq =>
    rw [if_neg]
    rintro ⟨-, -, h3⟩
    apply h
    rw [← List.mem_reverse, heq, h3]
    exact List.mem_cons_of_mem _ (List.mem_cons_of_mem _ (List.mem_cons_self _ _))
  · rfl

theorem stripCodeCore_eq_none {l : List Char}
    (h : ∀ c t, l = c :: t → isUpperAZ c = false) : stripCodeCore l = none := by
  unfold stripCodeCore
  rw [if_neg]
  cases l with
  | nil => simp
  | cons c t =>
    rw [List.takeWhile_cons, h c t rfl]
    simp

theorem stripCodePre_eq_self {l : List Char}
    (h : ∀ c t, l = c :: t → (c ≠ '[' ∧ isUpperAZ c = false)) : stripCodePre l = l := by
  unfold stripCodePre
  cases l with
  | nil => simp [stripCodeCore_eq_none]
  | cons c t =>
    obtain ⟨hne, hup⟩ := h c t rfl
    rw [if_neg (by simp [hne]), stripCodeCore_eq_none (fun d u hdu => by
      rw [show d = c from ((List.cons.injEq ..).mp hdu |>.1).symm]
      exact hup)]
    rfl

theorem stripNumPre_eq_self {l : List Char} (h : '.' ∉ l) : stripNumPre l = l := by
  unfold stripNumPre
  by_cases hd : l.takeWhile isDigit09 = []
  · rw [if_pos hd]
  · rw [if_neg hd]
    split
    · next r2 heq =>
      exfalso
      apply h
      exact (List.dropWhile_sublist isDigit09).mem (heq ▸ List.mem_cons_self _ _)
    · rfl

theorem map_asciiToLower_eq_self {l : List Char}
    (h : ∀ c ∈ l, isUpperAZ c = false) : l.map asciiToLower = l := by
  induction l with
  | nil => rfl
  | cons c t ih =>
    rw [List.map_cons, asciiToLower_eq_self (h c (List.mem_cons_self _ _)),
      ih (fun d hd => h d (List.mem_cons_of_mem _ hd))]

theorem removeNonWord_eq_self {l : List Char}
    (h : ∀ c ∈ l, (isWordChar c || isSpaceJS c) = true) : removeNonWord l = l :=
  List.filter_eq_self.mpr h

/-- `lwWord w`: a word as produced by the normalizer — nonempty, every character
lowercase word-class. -/
def lwWord (w : List Char) : Prop :=
  w ≠ [] ∧ ∀ c ∈ w, lwChar c

/-- The output of `normalizeChars` is always a space-joined list of normalized
words. -/
theorem normalizeChars_shape (l : List Char) :
    ∃ ws, normalizeChars l = joinSpace ws ∧ ∀ w ∈ ws, lwWord w := by
  refine ⟨wordsOf (removeNonWord ((stripNumPre (stripCodePre (stripMdExt l))).map
    asciiToLower)), rfl, ?_⟩
  intro w hw
  set v := (stripNumPre (stripCodePre (stripMdExt l))).map asciiToLower with hv
  have hwmem : w ∈ splitWsAux [] (removeNonWord v) ∧ (!w.isEmpty) = true :=
    List.mem_filter.mp hw
  constructor
  · intro hnil
    rw [hnil] at hwmem
    simp at hwmem
  · intro c hc
    refine splitWsAux_chars (removeNonWord v) [] (by simp) ?_ w hwmem.1 c hc
    intro d hd hds
    have hdm := List.mem_filter.mp hd
    have hdup : isUpperAZ d = false := by
      obtain ⟨d0, _, hd0⟩ := List.mem_map.mp hdm.1
      rw [← hd0]
      exact asciiToLower_not_upper d0
    refine ⟨?_, hdup, hds⟩
    have := hdm.2
    rw [Bool.or_eq_true] at this
    rcases this with hw' | hs'
    · exact hw'
    · rw [hds] at hs'
      exact absurd hs' (by simp)

/-- `normalizeChars` fixes any space-joined list of normalized words. -/
theorem normalizeChars_fix {ws : List (List Char)} (h : ∀ w ∈ ws, lwWord w) :
    normalizeChars (joinSpace ws) = joinSpace ws := by
  have hchar : ∀ c ∈ joinSpace ws, lwChar c ∨ c = ' ' := by
    intro c hc
    rcases mem_joinSpace hc with ⟨w, hw, hcw⟩ | hsp
    · exact Or.inl ((h w hw).2 c hcw)
    · exact Or.inr hsp
  have hdot : '.' ∉ joinSpace ws := by
    intro hd
    rcases hchar _ hd with hlw | hsp
    · exact lwChar_ne_dot hlw rfl
    · exact absurd hsp (by decide)
  unfold normalizeChars
  rw [stripMdExt_eq_self hdot]
  rw [stripCodePre_eq_self (by
    intro c t hct
    have hc : c ∈ joinSpace ws := hct ▸ List.mem_cons_self _ _
    rcases hchar c hc with hlw | hsp
    · exact ⟨lwChar_ne_bracket hlw, lwChar_not_upper hlw⟩
    · rw [hsp]
      exact ⟨by decide, by decide⟩)]
  rw [stripNumPre_eq_self hdot]
  rw [map_asciiToLower_eq_self (by
    intro c hc
    rcases hchar c hc with hlw | hsp
    · exact lwChar_not_upper hlw
    · rw [hsp]; decide)]
  rw [removeNonWord_eq_self (by
    intro c hc
    rcases hchar c hc with hlw | hsp
    · rw [hlw.1]; rfl
    · rw [hsp]; decide)]
  rw [wordsOf_joinSpace ws (fun w hw => ⟨(h w hw).1,
    fun c hc => lwChar_not_space ((h w hw).2 c hc)⟩)]

/-- C9: `normalizeTitle` is idempotent — normalizing an already-normalized title
changes nothing, for every input string. -/
theorem claim_C9_normalizeTitle_idempotent (s : String) :
    normalizeTitle (normalizeTitle s) = normalizeTitle s := by
  unfold normalizeTitle
  obtain ⟨ws, hws, hall⟩ := normalizeChars_shape s.data
  have hdata : (String.mk (normalizeChars s.data)).data = normalizeChars s.data := rfl
  rw [hdata, hws, normalizeChars_fix hall]

/-! ### Data model: files, candidates, similarity scores -/

/-- The fields of an Obsidian `TFile` the core reads. -/
structure SFile where
  path : String
  basename : String
  mtime : ℕ
deriving DecidableEq

/-- Placeholder file used for out-of-range indexing in the embedding. -/
def dummyFile : SFile := ⟨"", "", 0⟩

/-- A `DuplicateCandidate` (src/types): optional fields are absent until content
refinement runs. -/
structure Candidate where
  file1 : SFile
  file2 : SFile
  titleSimilarity : ℚ
  contentSimilarity : Option ℚ
  likelyDuplicate : Option Bool
deriving DecidableEq

/-- JS `Set.add` on an insertion-ordered list. -/
def insertIfNew {α : Type} [DecidableEq α] (acc : List α) (x : α) : List α :=
  if x ∈ acc then acc else acc ++ [x]

/-- JS `new Set(iterable)`: insertion-order deduplication. -/
def dedupKeepFirst {α : Type} [DecidableEq α] (l : List α) : List α :=
  l.foldl insertIfNew []

theorem mem_foldl_insertIfNew {α : Type} [DecidableEq α] :
    ∀ (l acc : List α) (x : α), x ∈ l.foldl insertIfNew acc ↔ x ∈ acc ∨ x ∈ l
  | [], acc, x => by simp
  | a :: t, acc, x => by
    rw [List.foldl_cons, mem_foldl_insertIfNew t (insertIfNew acc a) x]
    unfold insertIfNew
    by_cases ha : a ∈ acc
    · rw [if_pos ha]
      constructor
      · rintro (h | h)
        · exact Or.inl h
        · exact Or.inr (List.mem_cons_of_mem _ h)
      · rintro (h | h)
        · exact Or.inl h
        · rcases List.mem_cons.mp h with h1 | h2
          · exact Or.inl (h1 ▸ ha)
          · exact Or.inr h2
    · rw [if_neg ha]
      simp only [List.mem_append, List.mem_singleton, List.mem_cons]
      tauto

theorem nodup_foldl_insertIfNew {α : Type} [DecidableEq α] :
    ∀ (l acc : List α), acc.Nodup → (l.foldl insertIfNew acc).Nodup
  | [], _, h => h
  | a :: t, acc, h => by
    rw [List.foldl_cons]
    apply nodup_foldl_insertIfNew t
    unfold insertIfNew
    by_cases ha : a ∈ acc
    · rwa [if_pos ha]
    · rw [if_neg ha]
      exact List.Nodup.append h (List.nodup_singleton a) (by simpa using ha)

theorem mem_dedupKeepFirst {α : Type} [DecidableEq α] (l : List α) (x : α) :
    x ∈ dedupKeepFirst l ↔ x ∈ l := by
  unfold dedupKeepFirst
  rw [mem_foldl_insertIfNew]
  simp

theorem nodup_dedupKeepFirst {α : Type} [DecidableEq α] (l : List α) :
    (dedupKeepFirst l).Nodup :=
  nodup_foldl_insertIfNew l [] List.nodup_nil

/-- `wordSet` (scanner): insertion-ordered set of normalized word tokens of a
basename — `new Set(normalizeTitle(b).split(/\s+/).filter(Boolean))`. -/
def wordTokens (basename : String) : List String :=
  dedupKeepFirst ((wordsOf (normalizeTitle basename).data).map String.mk)

/-- The token set of a basename as a `Finset`. -/
def tokenSet (basename : String) : Finset String :=
  (wordTokens basename).toFinset

theorem nodup_wordTokens (b : String) : (wordTokens b).Nodup :=
  nodup_dedupKeepFirst _

/-- Exact division of two naturals in `ℚ`, written with `mkRat` so that the
kernel can evaluate it; `ratDiv_eq_div` shows it is ordinary division (the JS
float division is exact on every value this development evaluates it at only in
the sense modelled here: real-valued semantics). -/
def ratDiv (a b : ℕ) : ℚ := mkRat a b

theorem ratDiv_eq_div (a b : ℕ) : ratDiv a b = (a : ℚ) / (b : ℚ) := by
  unfold ratDiv
  rw [Rat.mkRat_eq_div]
  norm_num

theorem ratDiv_zero_left (b : ℕ) : ratDiv 0 b = 0 := by
  rw [ratDiv_eq_div]
  norm_num

/-- Jaccard similarity over finite sets, with the `union = 0` guard of the
scanner's inner loop. -/
def jaccardF (A B : Finset String) : ℚ :=
  if (A ∪ B).card = 0 then 0 else ratDiv (A ∩ B).card (A ∪ B).card

/-- The scanner's inner-loop arithmetic on the two precomputed word lists:
intersection count, `unionSize = size1 + size2 - intersection`, guarded
division. -/
def listJaccard (w1 w2 : List String) : ℚ :=
  let interCount := (w1.filter (fun w => decide (w ∈ w2))).length
  let unionSize := w1.length + w2.length - interCount
  if unionSize = 0 then 0 else ratDiv interCount unionSize

/-- Embedding of `titleSimilarity` (src/similarity): normalize both titles,
Jaccard over the word sets, `0` if either set is empty. -/
def titleSimilarity (t1 t2 : String) : ℚ :=
  let words1 := wordTokens t1
  let words2 := wordTokens t2
  if words1.length = 0 ∨ words2.length = 0 then 0
  else ratDiv (words1.filter (fun w => decide (w ∈ words2))).length
         (dedupKeepFirst (words1 ++ words2)).length

theorem filter_mem_length_eq_inter_card {w1 w2 : List String} (h1 : w1.Nodup) :
    (w1.filter (fun w => decide (w ∈ w2))).length = (w1.toFinset ∩ w2.toFinset).card := by
  have hnd : (w1.filter (fun w => decide (w ∈ w2))).Nodup := h1.filter _
  rw [← List.toFinset_card_of_nodup hnd]
  congr 1
  ext x
  simp [List.mem_filter]

theorem dedup_append_length_eq_union_card (w1 w2 : List String) :
    (dedupKeepFirst (w1 ++ w2)).length = (w1.toFinset ∪ w2.toFinset).card := by
  rw [← List.toFinset_card_of_nodup (nodup_dedupKeepFirst (w1 ++ w2))]
  congr 1
  ext x
  simp [mem_dedupKeepFirst]

theorem length_eq_toFinset_card {w : List String} (h : w.Nodup) :
    w.length = w.toFinset.card :=
  (List.toFinset_card_of_nodup h).symm

theorem listJaccard_eq_jaccardF {w1 w2 : List String} (h1 : w1.Nodup) (h2 : w2.Nodup) :
    listJaccard w1 w2 = jaccardF w1.toFinset w2.toFinset := by
  unfold listJaccard jaccardF
  have hinter := @filter_mem_length_eq_inter_card w1 w2 h1
  have hcard : (w1.toFinset ∪ w2.toFinset).card + (w1.toFinset ∩ w2.toFinset).card =
      w1.toFinset.card + w2.toFinset.card := Finset.card_union_add_card_inter _ _
  have hle : (w1.filter (fun w => decide (w ∈ w2))).length ≤ w1.length :=
    List.length_filter_le _ _
  dsimp only
  rw [hinter, length_eq_toFinset_card h1, length_eq_toFinset_card h2]
  have hunion : w1.toFinset.card + w2.toFinset.card - (w1.toFinset ∩ w2.toFinset).card =
      (w1.toFinset ∪ w2.toFinset).card := by omega
  rw [hunion]

theorem jaccardF_comm (A B : Finset String) : jaccardF A B = jaccardF B A := by
  unfold jaccardF
  rw [Finset.union_comm, Finset.inter_comm]

theorem titleSimilarity_eq_jaccardF (t1 t2 : String) :
    titleSimilarity t1 t2 = jaccardF (tokenSet t1) (tokenSet t2) := by
  unfold titleSimilarity jaccardF tokenSet
  by_cases h : (wordTokens t1).length = 0 ∨ (wordTokens t2).length = 0
  · rw [if_pos h]
    rcases h with h | h
    · have : wordTokens t1 = [] := List.length_eq_zero.mp h
      rw [this]
      simp [Finset.inter_comm, ratDiv_zero_left]
    · have : wordTokens t2 = [] := List.length_eq_zero.mp h
      rw [this]
      simp [ratDiv_zero_left]
  · rw [if_neg h]
    push_neg at h
    have hne : ((wordTokens t1).toFinset ∪ (wordTokens t2).toFinset).card ≠ 0 := by
      rw [← dedup_append_length_eq_union_card]
      intro hz
      have := mem_dedupKeepFirst ((wordTokens t1) ++ (wordTokens t2))
      rcases List.length_eq_zero.mp hz with h0
      have h1 : wordTokens t1 = [] := by
        cases hw : wordTokens t1 with
        | nil => rfl
        | cons a t =>
          exfalso
          have : a ∈ dedupKeepFirst ((wordTokens t1) ++ (wordTokens t2)) := by
            rw [mem_dedupKeepFirst]
            exact List.mem_append_left _ (hw ▸ List.mem_cons_self _ _)
          rw [h0] at this
          exact List.not_mem_nil a this
      exact h.1 (by rw [h1]; rfl)
    rw [if_neg hne,
      filter_mem_length_eq_inter_card (nodup_wordTokens t1),
      dedup_append_length_eq_union_card]

/-! ### JS `Map` as an insertion-ordered association list -/

/-- `Map.get`. -/
def alistGet {α β : Type} [DecidableEq α] (m : List (α × β)) (k : α) : Option β :=
  (m.find? (fun p => decide (p.1 = k))).map (fun p => p.2)

/-- `Map.set`: replace in place if present, else append. -/
def alistSet {α β : Type} [DecidableEq α] (m : List (α × β)) (k : α) (v : β) :
    List (α × β) :=
  if m.any (fun p => decide (p.1 = k)) then
    m.map (fun p => if p.1 = k then (k, v) else p)
  else m ++ [(k, v)]

theorem find?_map_set_self {α β : Type} [DecidableEq α] :
    ∀ (m : List (α × β)) (k : α) (v : β),
      (m.map (fun p => if p.1 = k then (k, v) else p)).find? (fun p => decide (p.1 = k)) =
        (m.find? (fun p => decide (p.1 = k))).map (fun _ => (k, v))
  | [], _, _ => rfl
  | p :: t, k, v => by
    by_cases hp : p.1 = k
    · rw [List.map_cons, if_pos hp, List.find?_cons_of_pos _ (by simp),
        List.find?_cons_of_pos _ (by simp [hp])]
      rfl
    · rw [List.map_cons, if_neg hp, List.find?_cons_of_neg _ (by simp [hp]),
        List.find?_cons_of_neg _ (by simp [hp])]
      exact find?_map_set_self t k v

theorem find?_map_set_ne {α β : Type} [DecidableEq α] {k k' : α} (hne : k' ≠ k) :
    ∀ (m : List (α × β)) (v : β),
      (m.map (fun p => if p.1 = k then (k, v) else p)).find? (fun p => decide (p.1 = k')) =
        m.find? (fun p => decide (p.1 = k'))
  | [], _ => rfl
  | p :: t, v => by
    by_cases hp : p.1 = k
    · rw [List.map_cons, if_pos hp, List.find?_cons_of_neg _ (by simp [Ne.symm hne]),
        List.find?_cons_of_neg _ (by simp [hp, Ne.symm hne])]
      exact find?_map_set_ne hne t v
    · by_cases hp' : p.1 = k'
      · rw [List.map_cons, if_neg hp, List.find?_cons_of_pos _ (by simp [hp']),
          List.find?_cons_of_pos _ (by simp [hp'])]
      · rw [List.map_cons, if_neg hp, List.find?_cons_of_neg _ (by simp [hp']),
          List.find?_cons_of_neg _ (by simp [hp'])]
        exact find?_map_set_ne hne t v

theorem alistGet_set_self {α β : Type} [DecidableEq α] (m : List (α × β)) (k : α) (v : β) :
    alistGet (alistSet m k v) k = some v := by
  unfold alistGet alistSet
  by_cases hany : m.any (fun p => decide (p.1 = k))
  · rw [if_pos hany, find?_map_set_self]
    obtain ⟨p, hp, hpk⟩ := List.any_eq_true.mp hany
    cases hf : m.find? (fun p => decide (p.1 = k)) with
    | none =>
      exfalso
      exact (List.find?_eq_none.mp hf p hp) hpk
    | some q => rfl
  · rw [if_neg hany]
    have hnone : m.find? (fun p => decide (p.1 = k)) = none :=
      List.find?_eq_none.mpr (fun p hp hpk => hany (List.any_eq_true.mpr ⟨p, hp, hpk⟩))
    rw [List.find?_append, hnone]
    simp

theorem alistGet_set_ne {α β : Type} [DecidableEq α] {k k' : α} (hne : k' ≠ k)
    (m : List (α × β)) (v : β) : alistGet (alistSet m k v) k' = alistGet m k' := by
  unfold alistGet alistSet
  by_cases hany : m.any (fun p => decide (p.1 = k))
  · rw [if_pos hany, find?_map_set_ne hne]
  · rw [if_neg hany, List.find?_append]
    cases hf : m.find? (fun p => decide (p.1 = k')) with
    | none => simp [Ne.symm hne]
    | some q => rfl

/-! ### The inverted-index scan (`findTitleDuplicates`, async version) -/

/-- The mutable state of one `findTitleDuplicates` invocation. -/
structure TDState where
  index : List (String × List ℕ)
  wordSets : List (ℕ × List String)
  dups : List Candidate

/-- Current bucket of a word (empty when the word is not indexed yet). -/
def bucketOf (idx : List (String × List ℕ)) (w : String) : List ℕ :=
  (alistGet idx w).getD []

/-- `index.get(w)` + lazy bucket creation + `bucket.push(i)`. -/
def indexAdd (idx : List (String × List ℕ)) (w : String) (i : ℕ) :
    List (String × List ℕ) :=
  alistSet idx w (bucketOf idx w ++ [i])

/-- Gathering `candidateIndices`: iterate the current file's words, union the
buckets into a JS `Set` (insertion-ordered, deduplicated). -/
def collectCandidates (idx : List (String × List ℕ)) (words : List String) : List ℕ :=
  words.foldl (fun acc w =>
    match alistGet idx w with
    | some bucket => bucket.foldl insertIfNew acc
    | none => acc) []

/-- `wordSets.get(j)!`. -/
def wsGet (wordSets : List (ℕ × List String)) (j : ℕ) : List String :=
  (alistGet wordSets j).getD []

/-- Processing one file of index `i`: record its word set, score every
previously-seen index sharing a word, then insert the words into the index.
The source's local bindings (`words`, `wordSets1`, `sim`) are substituted
into their use sites. -/
def tdProcessFile (files : List SFile) (t : ℚ) (st : TDState) (i : ℕ) (file : SFile) :
    TDState :=
  { index := (wordTokens file.basename).foldl (fun idx w => indexAdd idx w i) st.index,
    wordSets := alistSet st.wordSets i (wordTokens file.basename),
    dups := (collectCandidates st.index (wordTokens file.basename)).foldl (fun ds j =>
      if t ≤ listJaccard (wordTokens file.basename)
          (wsGet (alistSet st.wordSets i (wordTokens file.basename)) j) then
        ds ++ [{ file1 := files.getD j dummyFile, file2 := file,
                 titleSimilarity := listJaccard (wordTokens file.basename)
                   (wsGet (alistSet st.wordSets i (wordTokens file.basename)) j),
                 contentSimilarity := none, likelyDuplicate := none }]
      else ds) st.dups }

/-- The `for` loop over all files, with the abort check at the top of each
iteration (the signal is constant in this embedding). -/
def tdLoop (files : List SFile) (t : ℚ) (aborted : Bool) : TDState :=
  files.enum.foldl
    (fun st p => if aborted then st else tdProcessFile files t st p.1 p.2)
    ⟨[], [], []⟩

/-- Stable insertion of `x` after every already-placed element `y` with
`le y x`. -/
def insertBy {α : Type} (le : α → α → Bool) (x : α) : List α → List α
  | [] => [x]
  | y :: t => if le y x then y :: insertBy le x t else x :: y :: t

/-- JS `Array.prototype.sort` with a consistent comparator: required to be a
stable sort, whose output is uniquely determined, here realized as a stable
insertion sort. -/
def stableSortBy {α : Type} (le : α → α → Bool) (l : List α) : List α :=
  l.foldl (fun acc x => insertBy le x acc) []

/-- Stable sort, descending by `titleSimilarity` (the `(a, b) => b.sim - a.sim`
comparator). -/
def sortByTitleSimDesc (l : List Candidate) : List Candidate :=
  stableSortBy (fun a b => decide (b.titleSimilarity ≤ a.titleSimilarity)) l

/-- Embedding of the inverted-index `findTitleDuplicates` (`part_003`). -/
def findTitleDuplicates (files : List SFile) (t : ℚ) (aborted : Bool) : List Candidate :=
  sortByTitleSimDesc (tdLoop files t aborted).dups

/-! ### The naive all-pairs `findTitleDuplicates` (src/scanner/index.ts) -/

/-- Lexicographic order on character lists: the JS string comparison used by
`Array.prototype.sort()` without a comparator (written out so the kernel can
evaluate it; identical to codepoint order, which agrees with UTF-16 order on
the strings this code handles). -/
def charListLt : List Char → List Char → Bool
  | [], [] => false
  | [], _ :: _ => true
  | _ :: _, [] => false
  | a :: as, b :: bs => if a < b then true else if b < a then false else charListLt as bs

/-- JS `a < b` on strings. -/
def strLt (a b : String) : Bool := charListLt a.data b.data

/-- The `[file1.path, file2.path].sort().join("|")` pair key. -/
def pairKey (p1 p2 : String) : String :=
  if strLt p2 p1 then p2 ++ "|" ++ p1 else p1 ++ "|" ++ p2

/-- The ordered pairs visited by the nested `i < j` loops, in visit order. -/
def allPairs : List SFile → List (SFile × SFile)
  | [] => []
  | f :: rest => rest.map (fun g => (f, g)) ++ allPairs rest

/-- One naive iteration: skip if the pair key was checked, otherwise record the
key and score with `titleSimilarity` (the source's `key`/`tSim` bindings are
substituted into their use sites). -/
def naiveStep (t : ℚ) (st : Finset String × List Candidate) (f1 f2 : SFile) :
    Finset String × List Candidate :=
  if pairKey f1.path f2.path ∈ st.1 then st
  else if t ≤ titleSimilarity f1.basename f2.basename then
    (insert (pairKey f1.path f2.path) st.1,
     st.2 ++ [{ file1 := f1, file2 := f2,
                titleSimilarity := titleSimilarity f1.basename f2.basename,
                contentSimilarity := none, likelyDuplicate := none }])
  else (insert (pairKey f1.path f2.path) st.1, st.2)

/-- Embedding of the synchronous all-pairs `findTitleDuplicates`
(src/scanner/index.ts, lines 342–381). -/
def naiveFindTitleDuplicates (files : List SFile) (t : ℚ) : List Candidate :=
  sortByTitleSimDesc
    (((allPairs files).foldl (fun st pq => naiveStep t st pq.1 pq.2) (∅, [])).2)

example :
    (findTitleDuplicates [⟨"a/Notes.md", "Notes", 0⟩, ⟨"a/Notes 1.md", "Notes 1", 0⟩,
      ⟨"a/Untitled.md", "Untitled", 0⟩] (ratDiv 1 2) false).map
        (fun c => (c.file1.path, c.file2.path, c.titleSimilarity)) =
      [("a/Notes.md", "a/Notes 1.md", ratDiv 1 2)] := by decide

example :
    (naiveFindTitleDuplicates [⟨"a/Notes.md", "Notes", 0⟩, ⟨"a/Notes 1.md", "Notes 1", 0⟩,
      ⟨"a/Untitled.md", "Untitled", 0⟩] (ratDiv 1 2)).map
        (fun c => (c.file1.path, c.file2.path, c.titleSimilarity)) =
      [("a/Notes.md", "a/Notes 1.md", ratDiv 1 2)] := by decide

/-! ### Stable-sort lemmas -/

theorem insertBy_perm {α : Type} (le : α → α → Bool) (x : α) :
    ∀ l : List α, (insertBy le x l).Perm (x :: l)
  | [] => List.Perm.refl _
  | y :: t => by
    unfold insertBy
    by_cases h : le y x
    · rw [if_pos h]
      exact ((insertBy_perm le x t).cons y).trans (List.Perm.swap x y t)
    · rw [if_neg h]

theorem stableSortBy_perm_aux {α : Type} (le : α → α → Bool) :
    ∀ (l acc : List α), (l.foldl (fun a x => insertBy le x a) acc).Perm (acc ++ l)
  | [], acc => by simp
  | x :: t, acc => by
    rw [List.foldl_cons]
    refine (stableSortBy_perm_aux le t (insertBy le x acc)).trans ?_
    have h1 : (insertBy le x acc ++ t).Perm ((x :: acc) ++ t) :=
      (insertBy_perm le x acc).append_right t
    refine h1.trans ?_
    rw [List.cons_append]
    exact List.perm_middle.symm

theorem stableSortBy_perm {α : Type} (le : α → α → Bool) (l : List α) :
    (stableSortBy le l).Perm l :=
  stableSortBy_perm_aux le l []

theorem mem_stableSortBy {α : Type} (le : α → α → Bool) (l : List α) (x : α) :
    x ∈ stableSortBy le l ↔ x ∈ l :=
  (stableSortBy_perm le l).mem_iff

/-! ### Index-level views of the scanned file list -/

/-- `files[i]` (the loops only index within bounds). -/
def fileAt (files : List SFile) (i : ℕ) : SFile :=
  files.getD i dummyFile

/-- The precomputed word list of file `i`. -/
def fileTok (files : List SFile) (i : ℕ) : List String :=
  wordTokens (fileAt files i).basename

/-- Paths are pairwise distinct, as index injectivity. -/
def pathInj (files : List SFile) : Prop :=
  ∀ i j, i < files.length → j < files.length →
    (fileAt files i).path = (fileAt files j).path → i = j

theorem pathInj_of_nodup {files : List SFile}
    (h : (files.map (fun f => f.path)).Nodup) : pathInj files := by
  intro i j hi hj heq
  have hi' : i < (List.map (fun f => f.path) files).length := by simpa using hi
  have hj' : j < (List.map (fun f => f.path) files).length := by simpa using hj
  have heq2 : (List.map (fun f => f.path) files)[i] = (List.map (fun f => f.path) files)[j] := by
    rw [List.getElem_map, List.getElem_map]
    rw [fileAt, fileAt, List.getD_eq_getElem files dummyFile hi,
      List.getD_eq_getElem files dummyFile hj] at heq
    exact heq
  exact (List.Nodup.getElem_inj_iff h).mp heq2

/-! ### Candidate-index collection -/

theorem collect_step_eq (idx : List (String × List ℕ)) (acc : List ℕ) (w : String) :
    (match alistGet idx w with
     | some bucket => bucket.foldl insertIfNew acc
     | none => acc) = (bucketOf idx w).foldl insertIfNew acc := by
  unfold bucketOf
  cases alistGet idx w with
  | none => rfl
  | some b => rfl

theorem mem_collect_aux (idx : List (String × List ℕ)) :
    ∀ (ws : List String) (acc : List ℕ) (j : ℕ),
      j ∈ ws.foldl (fun acc w =>
        (match alistGet idx w with
         | some bucket => bucket.foldl insertIfNew acc
         | none => acc)) acc ↔ j ∈ acc ∨ ∃ w ∈ ws, j ∈ bucketOf idx w
  | [], acc, j => by simp
  | w :: t, acc, j => by
    rw [List.foldl_cons, collect_step_eq,
      mem_collect_aux idx t ((bucketOf idx w).foldl insertIfNew acc) j,
      mem_foldl_insertIfNew]
    constructor
    · rintro ((h | h) | ⟨u, hu, hju⟩)
      · exact Or.inl h
      · exact Or.inr ⟨w, List.mem_cons_self _ _, h⟩
      · exact Or.inr ⟨u, List.mem_cons_of_mem _ hu, hju⟩
    · rintro (h | ⟨u, hu, hju⟩)
      · exact Or.inl (Or.inl h)
      · rcases List.mem_cons.mp hu with h1 | h2
        · exact Or.inl (Or.inr (h1 ▸ hju))
        · exact Or.inr ⟨u, h2, hju⟩

theorem mem_collectCandidates (idx : List (String × List ℕ)) (words : List String) (j : ℕ) :
    j ∈ collectCandidates idx words ↔ ∃ w ∈ words, j ∈ bucketOf idx w := by
  unfold collectCandidates
  rw [mem_collect_aux]
  simp

theorem nodup_collect_aux (idx : List (String × List ℕ)) :
    ∀ (ws : List String) (acc : List ℕ), acc.Nodup →
      (ws.foldl (fun acc w =>
        (match alistGet idx w with
         | some bucket => bucket.foldl insertIfNew acc
         | none => acc)) acc).Nodup
  | [], _, h => h
  | w :: t, acc, h => by
    rw [List.foldl_cons, collect_step_eq]
    exact nodup_collect_aux idx t _ (nodup_foldl_insertIfNew _ _ h)

theorem nodup_collectCandidates (idx : List (String × List ℕ)) (words : List String) :
    (collectCandidates idx words).Nodup :=
  nodup_collect_aux idx words [] List.nodup_nil

/-! ### Bucket evolution under word insertion -/

theorem bucketOf_indexAdd (idx : List (String × List ℕ)) (a : String) (i : ℕ) (w : String) :
    bucketOf (indexAdd idx a i) w =
      if w = a then bucketOf idx w ++ [i] else bucketOf idx w := by
  unfold indexAdd bucketOf
  by_cases hw : w = a
  · rw [if_pos hw, hw, alistGet_set_self]
    rfl
  · rw [if_neg hw, alistGet_set_ne hw]

theorem bucketOf_foldIndexAdd (i : ℕ) :
    ∀ (ws : List String) (idx : List (String × List ℕ)), ws.Nodup → ∀ w,
      bucketOf (ws.foldl (fun ix u => indexAdd ix u i) idx) w =
        if w ∈ ws then bucketOf idx w ++ [i] else bucketOf idx w
  | [], idx, _, w => by simp
  | a :: t, idx, hnd, w => by
    rw [List.foldl_cons,
      bucketOf_foldIndexAdd i t (indexAdd idx a i) (List.nodup_cons.mp hnd).2 w,
      bucketOf_indexAdd]
    by_cases hw : w = a
    · have hwt : w ∉ t := hw ▸ (List.nodup_cons.mp hnd).1
      rw [if_neg hwt, if_pos hw, if_pos (List.mem_cons.mpr (Or.inl hw))]
    · by_cases hwt : w ∈ t
      · rw [if_pos hwt, if_neg hw, if_pos (List.mem_cons.mpr (Or.inr hwt))]
      · rw [if_neg hwt, if_neg hw,
          if_neg (fun hc => (List.mem_cons.mp hc).elim hw hwt)]

/-! ### Guarded-append folds -/

theorem foldl_guard_append {α β : Type} (p : α → Prop) [DecidablePred p] (g : α → β) :
    ∀ (l : List α) (init : List β),
      l.foldl (fun ds j => if p j then ds ++ [g j] else ds) init =
        init ++ (l.filter (fun j => decide (p j))).map g
  | [], init => by simp
  | a :: t, init => by
    rw [List.foldl_cons, foldl_guard_append p g t]
    rw [List.filter_cons]
    by_cases hp : p a
    · rw [if_pos hp, if_pos (by simpa using hp)]
      simp
    · rw [if_neg hp, if_neg (by simpa using hp)]

/-! ### The inverted-index loop invariant -/

/-- The unordered path pair of a candidate. -/
def pairSet (c : Candidate) : Finset String :=
  {c.file1.path, c.file2.path}

/-- The candidate the inverted scan emits for the index pair `j < i`. -/
def mkCandJI (files : List SFile) (j i : ℕ) : Candidate :=
  { file1 := fileAt files j, file2 := fileAt files i,
    titleSimilarity := listJaccard (fileTok files i) (fileTok files j),
    contentSimilarity := none, likelyDuplicate := none }

/-- Invariant after the scan has processed the first `k` files: the index maps
each word to exactly the earlier file indices containing it, the word-set map
covers exactly the processed prefix, and the emitted candidates are exactly the
threshold-passing word-sharing pairs `j < i < k`, each unordered pair at most
once. -/
def TDInv (files : List SFile) (t : ℚ) (k : ℕ) (st : TDState) : Prop :=
  (∀ w, bucketOf st.index w =
    (List.range k).filter (fun j => decide (w ∈ fileTok files j))) ∧
  (∀ j, wsGet st.wordSets j = if j < k then fileTok files j else []) ∧
  (∀ c, c ∈ st.dups ↔ ∃ j i, j < i ∧ i < k ∧
    (∃ w, w ∈ fileTok files i ∧ w ∈ fileTok files j) ∧
    t ≤ listJaccard (fileTok files i) (fileTok files j) ∧ c = mkCandJI files j i) ∧
  List.Pairwise (fun c c' => pairSet c ≠ pairSet c') st.dups

theorem tdProcess_index (files : List SFile) (t : ℚ) (st : TDState) (k : ℕ) (f : SFile)
    (w : String) :
    bucketOf (tdProcessFile files t st k f).index w =
      if w ∈ wordTokens f.basename then bucketOf st.index w ++ [k]
      else bucketOf st.index w := by
  unfold tdProcessFile
  exact bucketOf_foldIndexAdd k (wordTokens f.basename) st.index (nodup_wordTokens _) w

theorem tdProcess_wordSets (files : List SFile) (t : ℚ) (st : TDState) (k : ℕ) (f : SFile)
    (j : ℕ) :
    wsGet (tdProcessFile files t st k f).wordSets j =
      if j = k then wordTokens f.basename else wsGet st.wordSets j := by
  unfold tdProcessFile wsGet
  by_cases hj : j = k
  · rw [if_pos hj, hj, alistGet_set_self]
    rfl
  · rw [if_neg hj, alistGet_set_ne hj]

theorem scoreFold_append (files : List SFile) (t : ℚ) (f : SFile)
    (ws : List (ℕ × List String)) :
    ∀ (cl : List ℕ) (init : List Candidate),
      cl.foldl (fun ds j =>
        if t ≤ listJaccard (wordTokens f.basename) (wsGet ws j) then
          ds ++ [{ file1 := files.getD j dummyFile, file2 := f,
                   titleSimilarity := listJaccard (wordTokens f.basename) (wsGet ws j),
                   contentSimilarity := none, likelyDuplicate := none }]
        else ds) init =
      init ++ (cl.filter (fun j =>
        decide (t ≤ listJaccard (wordTokens f.basename) (wsGet ws j)))).map (fun j =>
        { file1 := files.getD j dummyFile, file2 := f,
          titleSimilarity := listJaccard (wordTokens f.basename) (wsGet ws j),
          contentSimilarity := none, likelyDuplicate := none })
  | [], init => by simp
  | a :: cl', init => by
    rw [List.foldl_cons, scoreFold_append files t f ws cl', List.filter_cons]
    by_cases hp : t ≤ listJaccard (wordTokens f.basename) (wsGet ws a)
    · rw [if_pos hp, if_pos (by simpa using hp)]
      simp
    · rw [if_neg hp, if_neg (by simpa using hp)]

theorem tdProcess_dups (files : List SFile) (t : ℚ) (st : TDState) (k : ℕ) (f : SFile) :
    (tdProcessFile files t st k f).dups =
      st.dups ++
        ((collectCandidates st.index (wordTokens f.basename)).filter (fun j =>
          decide (t ≤ listJaccard (wordTokens f.basename)
            (wsGet (alistSet st.wordSets k (wordTokens f.basename)) j)))).map (fun j =>
          { file1 := files.getD j dummyFile, file2 := f,
            titleSimilarity := listJaccard (wordTokens f.basename)
              (wsGet (alistSet st.wordSets k (wordTokens f.basename)) j),
            contentSimilarity := none, likelyDuplicate := none }) := by
  exact scoreFold_append files t f (alistSet st.wordSets k (wordTokens f.basename))
    (collectCandidates st.index (wordTokens f.basename)) st.dups

theorem tdStep_inv {files : List SFile} {t : ℚ} {k : ℕ} {st : TDState}
    (hp : pathInj files) (hk : k < files.length) (hInv : TDInv files t k st) :
    TDInv files t (k + 1) (tdProcessFile files t st k (fileAt files k)) := by
  obtain ⟨hIdx, hWs, hDups, hPw⟩ := hInv
  have htokk : wordTokens (fileAt files k).basename = fileTok files k := rfl
  have hcand : ∀ j, j ∈ collectCandidates st.index (fileTok files k) ↔
      (j < k ∧ ∃ w, w ∈ fileTok files k ∧ w ∈ fileTok files j) := by
    intro j
    rw [mem_collectCandidates]
    constructor
    · rintro ⟨w, hw, hjw⟩
      rw [hIdx w] at hjw
      have := List.mem_filter.mp hjw
      refine ⟨List.mem_range.mp this.1, w, hw, by simpa using this.2⟩
    · rintro ⟨hjk, w, hw, hjw⟩
      refine ⟨w, hw, ?_⟩
      rw [hIdx w]
      exact List.mem_filter.mpr ⟨List.mem_range.mpr hjk, by simpa using hjw⟩
  have hwsim : ∀ j, j < k →
      wsGet (alistSet st.wordSets k (fileTok files k)) j = fileTok files j := by
    intro j hj
    unfold wsGet
    rw [alistGet_set_ne (by omega)]
    have := hWs j
    unfold wsGet at this
    rw [this, if_pos hj]
  have hNew :
      ((collectCandidates st.index (wordTokens (fileAt files k).basename)).filter (fun j =>
        decide (t ≤ listJaccard (wordTokens (fileAt files k).basename)
          (wsGet (alistSet st.wordSets k (wordTokens (fileAt files k).basename)) j)))).map
        (fun j =>
          { file1 := files.getD j dummyFile, file2 := fileAt files k,
            titleSimilarity := listJaccard (wordTokens (fileAt files k).basename)
              (wsGet (alistSet st.wordSets k (wordTokens (fileAt files k).basename)) j),
            contentSimilarity := none, likelyDuplicate := none }) =
      ((collectCandidates st.index (fileTok files k)).filter (fun j =>
        decide (t ≤ listJaccard (fileTok files k) (fileTok files j)))).map
        (fun j => mkCandJI files j k) := by
    rw [htokk]
    rw [List.filter_congr (fun j hj => by
      have hjk := (hcand j).mp hj
      rw [hwsim j hjk.1])]
    apply List.map_congr_left
    intro j hj
    have hjc := List.mem_filter.mp hj
    have hjk := (hcand j).mp hjc.1
    rw [hwsim j hjk.1]
    rfl
  have hd := tdProcess_dups files t st k (fileAt files k)
  rw [hNew] at hd
  refine ⟨?_, ?_, ?_, ?_⟩
  · intro w
    rw [tdProcess_index, htokk, hIdx w, List.range_succ, List.filter_append]
    by_cases hw : w ∈ fileTok files k
    · rw [if_pos hw]
      have h1 : List.filter (fun j => decide (w ∈ fileTok files j)) [k] = [k] := by
        simp [hw]
      rw [h1]
    · rw [if_neg hw]
      have h1 : List.filter (fun j => decide (w ∈ fileTok files j)) [k] = [] := by
        simp [hw]
      rw [h1, List.append_nil]
  · intro j
    rw [tdProcess_wordSets, htokk, hWs j]
    by_cases hj : j = k
    · rw [if_pos hj, hj, if_pos (Nat.lt_succ_self k)]
    · rw [if_neg hj]
      by_cases hjk : j < k
      · rw [if_pos hjk, if_pos (by omega)]
      · rw [if_neg hjk, if_neg (by omega)]
  · intro c
    rw [hd, List.mem_append, hDups c]
    constructor
    · rintro (⟨j, i, hji, hik, hsh, hsim, hc⟩ | hnew)
      · exact ⟨j, i, hji, by omega, hsh, hsim, hc⟩
      · obtain ⟨j, hjf, hc⟩ := List.mem_map.mp hnew
        have hjc := List.mem_filter.mp hjf
        obtain ⟨hjk, hsh⟩ := (hcand j).mp hjc.1
        exact ⟨j, k, hjk, by omega, hsh, by simpa using hjc.2, hc.symm⟩
    · rintro ⟨j, i, hji, hik, hsh, hsim, hc⟩
      by_cases hik2 : i < k
      · exact Or.inl ⟨j, i, hji, hik2, hsh, hsim, hc⟩
      · have hie : i = k := by omega
        subst hie
        refine Or.inr (List.mem_map.mpr ⟨j, List.mem_filter.mpr
          ⟨(hcand j).mpr ⟨hji, hsh⟩, by simpa using hsim⟩, hc.symm⟩)
  · rw [hd, List.pairwise_append]
    refine ⟨hPw, ?_, ?_⟩
    · rw [List.pairwise_map]
      have hnd : ((collectCandidates st.index (fileTok files k)).filter (fun j =>
          decide (t ≤ listJaccard (fileTok files k) (fileTok files j)))).Nodup :=
        (nodup_collectCandidates _ _).filter _
      have hnd2 := List.Pairwise.and_mem.mp hnd
      refine hnd2.imp ?_
      rintro j j2 ⟨hjm, hjm2, hne⟩ heq
      have hjk := ((hcand j).mp (List.mem_filter.mp hjm).1).1
      have hjk2 := ((hcand j2).mp (List.mem_filter.mp hjm2).1).1
      have hpj : (fileAt files j).path ∈ pairSet (mkCandJI files j2 k) := by
        rw [← heq]
        exact Finset.mem_insert_self _ _
      rcases Finset.mem_insert.mp hpj with hq | hq
      · exact hne (hp j j2 (by omega) (by omega) hq)
      · have := hp j k (by omega) (by omega) (Finset.mem_singleton.mp hq)
        omega
    · intro a ha b hb
      obtain ⟨j2, i2, hji2, hik2, h1x, h2x, hca⟩ := (hDups a).mp ha
      obtain ⟨j, hjf, hcb⟩ := List.mem_map.mp hb
      have hjk := ((hcand j).mp (List.mem_filter.mp hjf).1).1
      intro heq
      have hpk : (fileAt files k).path ∈ pairSet a := by
        rw [heq, ← hcb]
        exact Finset.mem_insert_of_mem (Finset.mem_singleton_self _)
      rw [hca] at hpk
      rcases Finset.mem_insert.mp hpk with hq | hq
      · have := hp k j2 (by omega) (by omega) hq
        omega
      · have := hp k i2 (by omega) (by omega) (Finset.mem_singleton.mp hq)
        omega

/-! ### From the step invariant to the whole loop -/

theorem foldl_enumFrom_inv {α σ : Type} (f : σ → ℕ × α → σ) (motive : ℕ → σ → Prop)
    (l : List α) (d : α)
    (hstep : ∀ k st, k < l.length → motive k st → motive (k + 1) (f st (k, l.getD k d))) :
    ∀ (rest : List α) (k : ℕ), k + rest.length ≤ l.length →
      (∀ m, m < rest.length → rest.getD m d = l.getD (k + m) d) →
      ∀ st, motive k st → motive (k + rest.length) ((rest.enumFrom k).foldl f st)
  | [], k, _, _, st, h => by simpa using h
  | a :: rest', k, hlen, hget, st, h => by
    have ha : a = l.getD k d := by
      have := hget 0 (by simp)
      simpa using this
    have h1 : motive (k + 1) (f st (k, a)) := by
      rw [ha]
      exact hstep k st (by simp at hlen; omega) h
    have h2 := foldl_enumFrom_inv f motive l d hstep rest' (k + 1)
      (by simp at hlen ⊢; omega)
      (fun m hm => by
        have := hget (m + 1) (by simp; omega)
        rw [List.getD_cons_succ] at this
        rw [this]
        congr 1
        omega)
      (f st (k, a)) h1
    have harith : k + (a :: rest').length = k + 1 + rest'.length := by
      simp
      omega
    rw [harith, List.enumFrom_cons, List.foldl_cons]
    exact h2

theorem tdLoop_inv (files : List SFile) (t : ℚ) (hp : pathInj files) :
    TDInv files t files.length (tdLoop files t false) := by
  have hbase : TDInv files t 0 (⟨[], [], []⟩ : TDState) := by
    refine ⟨?_, ?_, ?_, ?_⟩
    · intro w
      simp [bucketOf, alistGet]
    · intro j
      simp [wsGet, alistGet]
    · intro c
      simp
    · exact List.Pairwise.nil
  unfold tdLoop
  have hguard : (fun (st : TDState) (p : ℕ × SFile) =>
      if (false : Bool) then st else tdProcessFile files t st p.1 p.2) =
      fun (st : TDState) (p : ℕ × SFile) => tdProcessFile files t st p.1 p.2 := by
    funext st p
    simp
  rw [hguard]
  have h := foldl_enumFrom_inv
    (fun (st : TDState) (p : ℕ × SFile) => tdProcessFile files t st p.1 p.2)
    (TDInv files t) files dummyFile
    (fun k st hk hm => tdStep_inv hp hk hm)
    files 0 (by simp) (fun m hm => by simp) ⟨[], [], []⟩ hbase
  simpa using h

theorem findTitleDuplicates_chars (files : List SFile) (t : ℚ) (hp : pathInj files) :
    (∀ c, c ∈ findTitleDuplicates files t false ↔ ∃ j i, j < i ∧ i < files.length ∧
      (∃ w, w ∈ fileTok files i ∧ w ∈ fileTok files j) ∧
      t ≤ listJaccard (fileTok files i) (fileTok files j) ∧ c = mkCandJI files j i) ∧
    List.Pairwise (fun c c' => pairSet c ≠ pairSet c')
      (findTitleDuplicates files t false) := by
  obtain ⟨_, _, hmem, hpw⟩ := tdLoop_inv files t hp
  constructor
  · intro c
    unfold findTitleDuplicates sortByTitleSimDesc
    rw [mem_stableSortBy]
    exact hmem c
  · unfold findTitleDuplicates sortByTitleSimDesc
    exact ((stableSortBy_perm _ _).pairwise_iff (fun hxy => fun he => hxy he.symm)).mpr hpw

/-! ### Injectivity of the naive pair key (`|`-free paths) -/

theorem append_sep_inj (sep : Char) :
    ∀ (a c b d : List Char), sep ∉ a → sep ∉ c →
      a ++ sep :: b = c ++ sep :: d → a = c ∧ b = d
  | [], c, b, d, _, hc, h => by
    cases c with
    | nil =>
      simp at h
      exact ⟨rfl, h⟩
    | cons y c' =>
      rw [List.nil_append, List.cons_append] at h
      have hy := (List.cons.injEq ..).mp h
      exact absurd (hy.1 ▸ List.mem_cons_self y c') (fun hm => hc (hy.1 ▸ hm))
  | x :: a', c, b, d, ha, hc, h => by
    cases c with
    | nil =>
      rw [List.cons_append, List.nil_append] at h
      have hx := (List.cons.injEq ..).mp h
      exact absurd (hx.1 ▸ List.mem_cons_self x a') (fun hm => ha (hx.1 ▸ hm))
    | cons y c' =>
      rw [List.cons_append, List.cons_append] at h
      have hx := (List.cons.injEq ..).mp h
      have hrec := append_sep_inj sep a' c' b d
        (fun hm => ha (List.mem_cons_of_mem _ hm))
        (fun hm => hc (List.mem_cons_of_mem _ hm)) hx.2
      exact ⟨by rw [hx.1, hrec.1], hrec.2⟩

theorem strConcat_pipe_inj {a b c d : String} (ha : '|' ∉ a.data) (hc : '|' ∉ c.data)
    (h : a ++ "|" ++ b = c ++ "|" ++ d) : a = c ∧ b = d := by
  have hd : (a ++ "|" ++ b).data = (c ++ "|" ++ d).data := by rw [h]
  rw [String.data_append, String.data_append, String.data_append, String.data_append] at hd
  have hd' : a.data ++ '|' :: b.data = c.data ++ '|' :: d.data := by
    simpa using hd
  obtain ⟨h1, h2⟩ := append_sep_inj '|' a.data c.data b.data d.data ha hc hd'
  exact ⟨String.ext h1, String.ext h2⟩

theorem pairKey_inj {p1 p2 q1 q2 : String}
    (h1 : '|' ∉ p1.data) (h2 : '|' ∉ p2.data) (h3 : '|' ∉ q1.data) (h4 : '|' ∉ q2.data)
    (h : pairKey p1 p2 = pairKey q1 q2) :
    (p1 = q1 ∧ p2 = q2) ∨ (p1 = q2 ∧ p2 = q1) := by
  unfold pairKey at h
  by_cases hb1 : strLt p2 p1
  · rw [if_pos hb1] at h
    by_cases hb2 : strLt q2 q1
    · rw [if_pos hb2] at h
      obtain ⟨e1, e2⟩ := strConcat_pipe_inj h2 h4 h
      exact Or.inl ⟨e2, e1⟩
    · rw [if_neg hb2] at h
      obtain ⟨e1, e2⟩ := strConcat_pipe_inj h2 h3 h
      exact Or.inr ⟨e2, e1⟩
  · rw [if_neg hb1] at h
    by_cases hb2 : strLt q2 q1
    · rw [if_pos hb2] at h
      obtain ⟨e1, e2⟩ := strConcat_pipe_inj h1 h4 h
      exact Or.inr ⟨e1, e2⟩
    · rw [if_neg hb2] at h
      obtain ⟨e1, e2⟩ := strConcat_pipe_inj h1 h3 h
      exact Or.inl ⟨e1, e2⟩

/-! ### `allPairs` membership and key distinctness -/

theorem mem_allPairs_components :
    ∀ (l : List SFile) (x y : SFile), (x, y) ∈ allPairs l → x ∈ l ∧ y ∈ l
  | [], x, y, h => by simp [allPairs] at h
  | f :: rest, x, y, h => by
    rcases List.mem_append.mp h with h1 | h2
    · obtain ⟨g, hg, hfg⟩ := List.mem_map.mp h1
      obtain ⟨e1, e2⟩ := Prod.mk.injEq .. ▸ hfg
      refine ⟨?_, ?_⟩
      · rw [← e1]
        exact List.mem_cons_self _ _
      · rw [← e2]
        exact List.mem_cons_of_mem _ hg
    · have := mem_allPairs_components rest x y h2
      exact ⟨List.mem_cons_of_mem _ this.1, List.mem_cons_of_mem _ this.2⟩

theorem mem_allPairs :
    ∀ (l : List SFile) (x y : SFile), (x, y) ∈ allPairs l ↔
      ∃ i j, i < j ∧ j < l.length ∧ l.getD i dummyFile = x ∧ l.getD j dummyFile = y
  | [], x, y => by
    simp [allPairs]
  | f :: rest, x, y => by
    unfold allPairs
    rw [List.mem_append]
    constructor
    · rintro (h1 | h2)
      · obtain ⟨g, hg, hfg⟩ := List.mem_map.mp h1
        obtain ⟨e1, e2⟩ := Prod.mk.injEq .. ▸ hfg
        obtain ⟨j', hj', hval⟩ := List.mem_iff_getElem.mp hg
        refine ⟨0, j' + 1, by omega, by simp; omega, by simpa using e1, ?_⟩
        rw [List.getD_cons_succ, List.getD_eq_getElem rest dummyFile hj', hval]
        exact e2
      · obtain ⟨i, j, hij, hj, hx, hy⟩ := (mem_allPairs rest x y).mp h2
        exact ⟨i + 1, j + 1, by omega, by simp; omega,
          by rwa [List.getD_cons_succ], by rwa [List.getD_cons_succ]⟩
    · rintro ⟨i, j, hij, hj, hx, hy⟩
      cases i with
      | zero =>
        left
        rw [List.getD_cons_zero] at hx
        cases j with
        | zero => omega
        | succ j' =>
          rw [List.getD_cons_succ] at hy
          have hj' : j' < rest.length := by simp at hj; omega
          refine List.mem_map.mpr ⟨y, ?_, by rw [hx]⟩
          rw [← hy, List.getD_eq_getElem rest dummyFile hj']
          exact List.getElem_mem hj'
      | succ i' =>
        right
        cases j with
        | zero => omega
        | succ j' =>
          rw [List.getD_cons_succ] at hx hy
          exact (mem_allPairs rest x y).mpr ⟨i', j', by omega, by simp at hj; omega, hx, hy⟩

/-- The key of a visited pair. -/
def keyOf (pq : SFile × SFile) : String :=
  pairKey pq.1.path pq.2.path

theorem allPairs_keys_pairwise :
    ∀ (files : List SFile), (files.map (fun f => f.path)).Nodup →
      (∀ f ∈ files, '|' ∉ f.path.data) →
      List.Pairwise (fun pq pq' => keyOf pq ≠ keyOf pq') (allPairs files)
  | [], _, _ => List.Pairwise.nil
  | f :: rest, hnd, hpipe => by
    have hndr : (rest.map (fun f => f.path)).Nodup := (List.nodup_cons.mp (by simpa using hnd)).2
    have hfr : f.path ∉ rest.map (fun g => g.path) := (List.nodup_cons.mp (by simpa using hnd)).1
    have hpiper : ∀ g ∈ rest, '|' ∉ g.path.data :=
      fun g hg => hpipe g (List.mem_cons_of_mem _ hg)
    have hpipef : '|' ∉ f.path.data := hpipe f (List.mem_cons_self _ _)
    unfold allPairs
    rw [List.pairwise_append]
    have hpw : List.Pairwise (fun g g' => g.path ≠ g'.path) rest :=
      List.pairwise_map.mp hndr
    refine ⟨?_, allPairs_keys_pairwise rest hndr hpiper, ?_⟩
    · rw [List.pairwise_map]
      refine (List.Pairwise.and_mem.mp hpw).imp ?_
      rintro g g' ⟨hg, hg', hne⟩ hk
      rcases pairKey_inj hpipef (hpiper g hg) hpipef (hpiper g' hg') hk with
        ⟨-, e2⟩ | ⟨e1, -⟩
      · exact hne e2
      · exact hfr (e1 ▸ List.mem_map.mpr ⟨g', hg', rfl⟩)
    · rintro ⟨pf, g⟩ hpg ⟨a1, b1⟩ hab hk
      obtain ⟨g0, hg0, hfg⟩ := List.mem_map.mp hpg
      obtain ⟨e1, e2⟩ := Prod.mk.injEq .. ▸ hfg
      obtain ⟨ha1, hb1⟩ := mem_allPairs_components rest a1 b1 hab
      rw [← e1, ← e2] at hk
      unfold keyOf at hk
      rcases pairKey_inj hpipef (hpiper g0 hg0) (hpiper a1 ha1) (hpiper b1 hb1) hk with
        ⟨q1, -⟩ | ⟨q1, -⟩
      · exact hfr (q1 ▸ List.mem_map.mpr ⟨a1, ha1, rfl⟩)
      · exact hfr (q1 ▸ List.mem_map.mpr ⟨b1, hb1, rfl⟩)

/-! ### The naive fold never hits its `checkedPairs` skip when keys are distinct -/

theorem naive_fold_eq (t : ℚ) :
    ∀ (P : List (SFile × SFile)) (checked : Finset String) (acc : List Candidate),
      (∀ pq ∈ P, keyOf pq ∉ checked) →
      List.Pairwise (fun a b => keyOf a ≠ keyOf b) P →
      (P.foldl (fun st pq => naiveStep t st pq.1 pq.2) (checked, acc)).2 =
        acc ++ P.filterMap (fun pq =>
          if t ≤ titleSimilarity pq.1.basename pq.2.basename then
            some { file1 := pq.1, file2 := pq.2,
                   titleSimilarity := titleSimilarity pq.1.basename pq.2.basename,
                   contentSimilarity := none, likelyDuplicate := none }
          else none)
  | [], checked, acc, _, _ => by simp
  | pq :: P', checked, acc, hnk, hpw => by
    rw [List.foldl_cons, List.filterMap_cons]
    have hk : keyOf pq ∉ checked := hnk pq (List.mem_cons_self _ _)
    obtain ⟨hhead, htail⟩ := List.pairwise_cons.mp hpw
    have hnk' : ∀ pq' ∈ P', keyOf pq' ∉ insert (keyOf pq) checked := by
      intro pq' hpq' hmem
      rcases Finset.mem_insert.mp hmem with he | hm
      · exact hhead pq' hpq' he.symm
      · exact hnk pq' (List.mem_cons_of_mem _ hpq') hm
    by_cases hsim : t ≤ titleSimilarity pq.1.basename pq.2.basename
    · have hstep : naiveStep t (checked, acc) pq.1 pq.2 =
          (insert (keyOf pq) checked,
           acc ++ [{ file1 := pq.1, file2 := pq.2,
                     titleSimilarity := titleSimilarity pq.1.basename pq.2.basename,
                     contentSimilarity := none, likelyDuplicate := none }]) := by
        unfold naiveStep
        rw [if_neg (show ¬(pairKey pq.1.path pq.2.path ∈ (checked, acc).1) from hk),
          if_pos hsim]
        rfl
      rw [hstep, naive_fold_eq t P' (insert (keyOf pq) checked) _ hnk' htail, if_pos hsim]
      simp
    · have hstep : naiveStep t (checked, acc) pq.1 pq.2 =
          (insert (keyOf pq) checked, acc) := by
        unfold naiveStep
        rw [if_neg (show ¬(pairKey pq.1.path pq.2.path ∈ (checked, acc).1) from hk),
          if_neg hsim]
        rfl
      rw [hstep, naive_fold_eq t P' (insert (keyOf pq) checked) _ hnk' htail, if_neg hsim]

theorem naive_chars (files : List SFile) (t : ℚ)
    (hnd : (files.map (fun f => f.path)).Nodup)
    (hpipe : ∀ f ∈ files, '|' ∉ f.path.data) :
    ∀ c, c ∈ naiveFindTitleDuplicates files t ↔
      ∃ i j, i < j ∧ j < files.length ∧
        t ≤ titleSimilarity (fileAt files i).basename (fileAt files j).basename ∧
        c = { file1 := fileAt files i, file2 := fileAt files j,
              titleSimilarity := titleSimilarity (fileAt files i).basename
                (fileAt files j).basename,
              contentSimilarity := none, likelyDuplicate := none } := by
  intro c
  unfold naiveFindTitleDuplicates sortByTitleSimDesc
  rw [mem_stableSortBy,
    naive_fold_eq t (allPairs files) ∅ [] (fun pq _ => Finset.not_mem_empty _)
      (allPairs_keys_pairwise files hnd hpipe),
    List.nil_append, List.mem_filterMap]
  constructor
  · rintro ⟨pq, hpq, hc⟩
    by_cases hsim : t ≤ titleSimilarity pq.1.basename pq.2.basename
    · rw [if_pos hsim] at hc
      have hc' := (Option.some.injEq ..).mp hc
      have hpq' : (pq.1, pq.2) ∈ allPairs files := hpq
      obtain ⟨i, j, hij, hj, hx, hy⟩ := (mem_allPairs files pq.1 pq.2).mp hpq'
      have hxa : fileAt files i = pq.1 := hx
      have hya : fileAt files j = pq.2 := hy
      refine ⟨i, j, hij, hj, ?_, ?_⟩
      · rw [hxa, hya]
        exact hsim
      · rw [← hc', hxa, hya]
    · rw [if_neg hsim] at hc
      exact absurd hc (by simp)
  · rintro ⟨i, j, hij, hj, hsim, hc⟩
    refine ⟨(fileAt files i, fileAt files j),
      (mem_allPairs files _ _).mpr ⟨i, j, hij, hj, rfl, rfl⟩, ?_⟩
    rw [if_pos hsim, hc]

/-! ### Bridges between the two scanners' similarity values -/

theorem fileSim_eq (files : List SFile) (j i : ℕ) :
    listJaccard (fileTok files i) (fileTok files j) =
      titleSimilarity (fileAt files j).basename (fileAt files i).basename := by
  unfold fileTok
  rw [listJaccard_eq_jaccardF (nodup_wordTokens _) (nodup_wordTokens _), jaccardF_comm,
    titleSimilarity_eq_jaccardF]
  rfl

theorem shares_of_pos {A B : Finset String} (h : 0 < jaccardF A B) :
    ∃ w, w ∈ A ∧ w ∈ B := by
  by_contra hno
  push_neg at hno
  have hint : A ∩ B = ∅ := by
    ext w
    simp only [Finset.mem_inter, Finset.not_mem_empty, iff_false]
    rintro ⟨hwA, hwB⟩
    exact hno w hwA hwB
  unfold jaccardF at h
  rw [hint, Finset.card_empty, ratDiv_zero_left, ite_self] at h
  exact absurd h (lt_irrefl 0)

theorem mem_tokenSet (b : String) (w : String) : w ∈ tokenSet b ↔ w ∈ wordTokens b := by
  unfold tokenSet
  exact List.mem_toFinset

/-! ### C1: the inverted index against the naive all-pairs scan -/

/-- C1 (amended): for a file list with pairwise-distinct, `|`-free paths and a
strictly positive threshold, the inverted-index `findTitleDuplicates` contains
exactly the candidates of the naive all-pairs `titleSimilarity ≥ threshold`
scan; each unordered path pair appears at most once; `file1` is the file
occurring earlier in input order and `file2` the later one; and every reported
`titleSimilarity` equals the Jaccard similarity of the two normalized
word-token sets.  (As stated over every threshold the claim is false: see the
counterexample at threshold 0.) -/
theorem claim_C1_inverted_matches_naive (files : List SFile) (t : ℚ)
    (hnd : (List.map (fun f => f.path) files).Nodup)
    (hpipe : ∀ f ∈ files, '|' ∉ f.path.data)
    (ht : 0 < t) :
    (∀ c, c ∈ findTitleDuplicates files t false ↔ c ∈ naiveFindTitleDuplicates files t) ∧
    List.Pairwise (fun c c' => pairSet c ≠ pairSet c')
      (findTitleDuplicates files t false) ∧
    (∀ c ∈ findTitleDuplicates files t false, ∃ j i, j < i ∧ i < files.length ∧
      fileAt files j = c.file1 ∧ fileAt files i = c.file2) ∧
    (∀ c ∈ findTitleDuplicates files t false,
      c.titleSimilarity = jaccardF (tokenSet c.file1.basename) (tokenSet c.file2.basename)) := by
  have hp := pathInj_of_nodup hnd
  obtain ⟨hmem, hpw⟩ := findTitleDuplicates_chars files t hp
  have hnaive := naive_chars files t hnd hpipe
  refine ⟨?_, hpw, ?_, ?_⟩
  · intro c
    rw [hmem c, hnaive c]
    constructor
    · rintro ⟨j, i, hji, hin, hsh, hsim, hc⟩
      refine ⟨j, i, hji, hin, ?_, ?_⟩
      · rw [← fileSim_eq]
        exact hsim
      · rw [hc]
        unfold mkCandJI
        rw [fileSim_eq]
    · rintro ⟨i, j, hij, hjn, hsim, hc⟩
      refine ⟨i, j, hij, hjn, ?_, ?_, ?_⟩
      · have hpos : 0 < titleSimilarity (fileAt files i).basename
            (fileAt files j).basename := lt_of_lt_of_le ht hsim
        rw [titleSimilarity_eq_jaccardF] at hpos
        obtain ⟨w, hwA, hwB⟩ := shares_of_pos hpos
        exact ⟨w, (mem_tokenSet _ w).mp hwB, (mem_tokenSet _ w).mp hwA⟩
      · rw [fileSim_eq files i j]
        exact hsim
      · rw [hc]
        unfold mkCandJI
        rw [fileSim_eq files i j]
  · intro c hc
    obtain ⟨j, i, hji, hin, _, _, hceq⟩ := (hmem c).mp hc
    exact ⟨j, i, hji, hin, by rw [hceq]; rfl, by rw [hceq]; rfl⟩
  · intro c hc
    obtain ⟨j, i, hji, hin, _, _, hceq⟩ := (hmem c).mp hc
    rw [hceq]
    simp only [mkCandJI]
    unfold fileTok
    rw [listJaccard_eq_jaccardF (nodup_wordTokens _) (nodup_wordTokens _), jaccardF_comm]
    rfl

/-- C1 counterexample: at threshold `0`, the naive scan emits the pair of two
files sharing no title word (its similarity `0` passes `>= 0`), while the
inverted index never compares them — so the equivalence claimed for every
threshold fails. -/
theorem claim_C1_counterexample :
    findTitleDuplicates [⟨"a.md", "a", 0⟩, ⟨"b.md", "b", 0⟩] 0 false = [] ∧
    naiveFindTitleDuplicates [⟨"a.md", "a", 0⟩, ⟨"b.md", "b", 0⟩] 0 ≠ [] := by
  decide

/-- C1 witness: the amended equivalence applied at a concrete two-file vault
with threshold 0.8, all hypotheses discharged by evaluation. -/
theorem claim_C1_witness :
    ((List.map (fun f => f.path) [⟨"v/a.md", "Alpha Beta", 0⟩,
        (⟨"v/b.md", "Alpha Beta", 1⟩ : SFile)]).Nodup ∧
      (∀ f ∈ [(⟨"v/a.md", "Alpha Beta", 0⟩ : SFile), ⟨"v/b.md", "Alpha Beta", 1⟩],
        '|' ∉ f.path.data) ∧
      (0 : ℚ) < ratDiv 8 10) ∧
    (∀ c, c ∈ findTitleDuplicates [⟨"v/a.md", "Alpha Beta", 0⟩, ⟨"v/b.md", "Alpha Beta", 1⟩]
        (ratDiv 8 10) false ↔
      c ∈ naiveFindTitleDuplicates [⟨"v/a.md", "Alpha Beta", 0⟩, ⟨"v/b.md", "Alpha Beta", 1⟩]
        (ratDiv 8 10)) := by
  refine ⟨⟨by decide, by decide, by decide⟩, ?_⟩
  exact (claim_C1_inverted_matches_naive
    [⟨"v/a.md", "Alpha Beta", 0⟩, ⟨"v/b.md", "Alpha Beta", 1⟩] (ratDiv 8 10)
    (by decide) (by decide) (by decide)).1

/-! ### Content similarity (`part_002`): front-matter stripping and word sets -/

/-- JS `trim()`. -/
def trimJS (l : List Char) : List Char :=
  ((l.dropWhile isSpaceJS).reverse.dropWhile isSpaceJS).reverse

/-- JS `content.split("---")`: non-overlapping, leftmost-first split on the
three-character substring. -/
def splitTripleDash : List Char → List Char → List (List Char)
  | acc, '-' :: '-' :: '-' :: t => acc.reverse :: splitTripleDash [] t
  | acc, c :: t => splitTripleDash (c :: acc) t
  | acc, [] => [acc.reverse]

/-- JS `parts.join("---")`. -/
def joinTripleDash : List (List Char) → List Char
  | [] => []
  | [w] => w
  | w :: ws => w ++ '-' :: '-' :: '-' :: joinTripleDash ws

/-- Embedding of `extractBody`: when the content starts with the substring
`---` and splitting on `---` yields at least three parts, the body is the
re-joined remainder after the second part, trimmed; otherwise the whole
content, trimmed. -/
def extractBody (content : List Char) : List Char :=
  if ['-', '-', '-'].isPrefixOf content ∧ 3 ≤ (splitTripleDash [] content).length then
    trimJS (joinTripleDash ((splitTripleDash [] content).drop 2))
  else trimJS content

/-- Maximal word-character runs: `body.match(/\w+/g)`. -/
def splitNonWordAux : List Char → List Char → List (List Char)
  | acc, [] => [acc.reverse]
  | acc, c :: cs => if isWordChar c then splitNonWordAux (c :: acc) cs
                    else acc.reverse :: splitNonWordAux [] cs

/-- The nonempty word runs of a character list. -/
def wordRuns (l : List Char) : List (List Char) :=
  (splitNonWordAux [] l).filter (fun w => !w.isEmpty)

/-- The deduplicated word set of a content string: body extraction, truncation
to `maxChars`, lowercasing, word-run extraction, `new Set(...)`. -/
def contentWordSet (content : String) (maxChars : ℕ) : List String :=
  dedupKeepFirst
    ((wordRuns (((extractBody content.data).take maxChars).map asciiToLower)).map String.mk)

/-- Embedding of `contentSimilarity` (`part_002`). -/
def contentSimilarity (content1 content2 : String) (maxChars : ℕ) : ℚ :=
  if (contentWordSet content1 maxChars).length = 0 ∨
     (contentWordSet content2 maxChars).length = 0 then 0
  else ratDiv
    ((contentWordSet content1 maxChars).filter
      (fun w => decide (w ∈ contentWordSet content2 maxChars))).length
    (dedupKeepFirst (contentWordSet content1 maxChars ++ contentWordSet content2 maxChars)).length

example : extractBody ("---\ntitle: x\n---\nHello world".data) = "Hello world".data := by
  decide
example : contentSimilarity "---\na: 1\n---\nalpha beta" "alpha beta" 1000 = 1 := by decide
example : contentSimilarity "alpha" "beta" 1000 = 0 := by decide

/-! ### C8: what `extractBody` actually splits on -/

/-- Everything after the first occurrence of the substring `---`, if any. -/
def dropThroughTripleDash : List Char → Option (List Char)
  | '-' :: '-' :: '-' :: t => some t
  | _ :: t => dropThroughTripleDash t
  | [] => none

theorem splitTripleDash_ne_nil : ∀ (acc l : List Char), splitTripleDash acc l ≠ [] := by
  intro acc l
  induction acc, l using splitTripleDash.induct with
  | case1 acc t ih => simp [splitTripleDash]
  | case2 acc c t h ih =>
    rw [splitTripleDash]
    · exact ih
    · exact h
  | case3 acc => simp [splitTripleDash]

theorem joinTripleDash_cons_of_ne {a : List Char} {rest : List (List Char)} (h : rest ≠ []) :
    joinTripleDash (a :: rest) = a ++ '-' :: '-' :: '-' :: joinTripleDash rest := by
  cases rest with
  | nil => exact absurd rfl h
  | cons b t => rfl

theorem joinTripleDash_split : ∀ (acc l : List Char),
    joinTripleDash (splitTripleDash acc l) = acc.reverse ++ l := by
  intro acc l
  induction acc, l using splitTripleDash.induct with
  | case1 acc t ih =>
    rw [show splitTripleDash acc ('-' :: '-' :: '-' :: t) =
        acc.reverse :: splitTripleDash [] t from by rw [splitTripleDash],
      joinTripleDash_cons_of_ne (splitTripleDash_ne_nil [] t), ih]
    simp
  | case2 acc c t h ih =>
    rw [splitTripleDash]
    · rw [ih]
      simp
    · exact h
  | case3 acc =>
    simp [splitTripleDash, joinTripleDash]

theorem splitTripleDash_len2_iff : ∀ (acc l : List Char),
    2 ≤ (splitTripleDash acc l).length ↔ (dropThroughTripleDash l).isSome = true := by
  intro acc l
  induction acc, l using splitTripleDash.induct with
  | case1 acc t ih =>
    rw [show splitTripleDash acc ('-' :: '-' :: '-' :: t) =
        acc.reverse :: splitTripleDash [] t from by rw [splitTripleDash],
      show dropThroughTripleDash ('-' :: '-' :: '-' :: t) = some t from by
        rw [dropThroughTripleDash]]
    constructor
    · intro _
      rfl
    · intro _
      have := splitTripleDash_ne_nil [] t
      have hlen : 1 ≤ (splitTripleDash [] t).length := by
        cases hsp : splitTripleDash [] t with
        | nil => exact absurd hsp this
        | cons x xs => simp
      simp
      omega
  | case2 acc c t h ih =>
    rw [splitTripleDash]
    · rw [ih, show dropThroughTripleDash (c :: t) = dropThroughTripleDash t from by
        rw [dropThroughTripleDash]
        exact h]
    · exact h
  | case3 acc =>
    simp [splitTripleDash, dropThroughTripleDash]

theorem splitTripleDash_drop1 : ∀ (acc l : List Char),
    ∀ r, dropThroughTripleDash l = some r →
      (splitTripleDash acc l).drop 1 = splitTripleDash [] r := by
  intro acc l
  induction acc, l using splitTripleDash.induct with
  | case1 acc t ih =>
    intro r hr
    rw [show dropThroughTripleDash ('-' :: '-' :: '-' :: t) = some t from by
      rw [dropThroughTripleDash]] at hr
    have : t = r := (Option.some.injEq ..).mp hr
    rw [show splitTripleDash acc ('-' :: '-' :: '-' :: t) =
        acc.reverse :: splitTripleDash [] t from by rw [splitTripleDash],
      List.drop_one, List.tail_cons, this]
  | case2 acc c t h ih =>
    intro r hr
    rw [show dropThroughTripleDash (c :: t) = dropThroughTripleDash t from by
      rw [dropThroughTripleDash]
      exact h] at hr
    rw [splitTripleDash]
    · exact ih r hr
    · exact h
  | case3 acc =>
    intro r hr
    rw [dropThroughTripleDash] at hr
    exact absurd hr (by simp)

theorem triplePre_iff (l : List Char) :
    (['-', '-', '-'].isPrefixOf l) = true ↔ ∃ t, l = '-' :: '-' :: '-' :: t := by
  cases l with
  | nil => simp [List.isPrefixOf]
  | cons a l1 =>
    cases l1 with
    | nil => simp [List.isPrefixOf]
    | cons b l2 =>
      cases l2 with
      | nil => simp [List.isPrefixOf]
      | cons c l3 =>
        simp [List.isPrefixOf]
        aesop

/-- The `extractBody` behavior restated against the first occurrence of the
SUBSTRING `---` after the opening `---` (the amended reading of the claim). -/
def extractBodyAmended (content : List Char) : List Char :=
  if ['-', '-', '-'].isPrefixOf content then
    match dropThroughTripleDash (content.drop 3) with
    | some r => trimJS r
    | none => trimJS content
  else trimJS content

theorem extractBody_eq_amended (content : List Char) :
    extractBody content = extractBodyAmended content := by
  unfold extractBody extractBodyAmended
  by_cases hpre : (['-', '-', '-'].isPrefixOf content) = true
  · obtain ⟨t, ht⟩ := (triplePre_iff content).mp hpre
    subst ht
    have hdrop : ('-' :: '-' :: '-' :: t).drop 3 = t := rfl
    have hsplit : splitTripleDash [] ('-' :: '-' :: '-' :: t) =
        [].reverse :: splitTripleDash [] t := by rw [splitTripleDash]
    cases hdt : dropThroughTripleDash t with
    | some r =>
      have hlen2 : 2 ≤ (splitTripleDash [] t).length :=
        (splitTripleDash_len2_iff [] t).mpr (by rw [hdt]; rfl)
      have hlen : 3 ≤ (splitTripleDash [] ('-' :: '-' :: '-' :: t)).length := by
        rw [hsplit]
        simp
        omega
      rw [if_pos ⟨hpre, hlen⟩, if_pos hpre, hdrop, hdt]
      rw [hsplit, show ((List.reverse [] : List Char) :: splitTripleDash [] t).drop 2 =
        (splitTripleDash [] t).drop 1 from rfl]
      rw [splitTripleDash_drop1 [] t r hdt, joinTripleDash_split]
      rfl
    | none =>
      have hlen2 : ¬ 2 ≤ (splitTripleDash [] t).length := by
        rw [splitTripleDash_len2_iff [] t, hdt]
        simp
      have hlen : ¬ 3 ≤ (splitTripleDash [] ('-' :: '-' :: '-' :: t)).length := by
        rw [hsplit]
        simp at hlen2 ⊢
        omega
      rw [if_neg (fun hc => hlen hc.2), if_pos hpre, hdrop, hdt]
  · rw [if_neg (fun hc => hpre hc.1), if_neg hpre]

/-- Line splitter (on `\n`), for the claim's "delimiter line" reading. -/
def splitNlAux : List Char → List Char → List (List Char)
  | acc, [] => [acc.reverse]
  | acc, c :: cs => if c = '\n' then acc.reverse :: splitNlAux [] cs
                    else splitNlAux (c :: acc) cs

/-- Modelled from the claim's words: the body is everything after the second
front-matter delimiter LINE of three hyphens when the content begins with such
a delimiter line and a second matching delimiter line exists; otherwise the
whole content. -/
def extractBodySpecLines (content : List Char) : List Char :=
  match splitNlAux [] content with
  | [] => content
  | first :: rest =>
    if first = ['-', '-', '-'] ∧ rest.any (fun ln => decide (ln = ['-', '-', '-'])) then
      List.intercalate ['\n']
        ((rest.dropWhile (fun ln => decide (ln ≠ ['-', '-', '-']))).drop 1)
    else content

/-- C8 counterexample: on `"---a---b"` the code's split-on-substring body is
`"b"`, while under the claim's delimiter-line reading the body is the whole
content — and the difference is observable through `contentSimilarity`. -/
theorem claim_C8_counterexample :
    extractBody ("---a---b".data) = "b".data ∧
    extractBodySpecLines ("---a---b".data) = "---a---b".data ∧
    extractBody ("---a---b".data) ≠ extractBodySpecLines ("---a---b".data) ∧
    contentSimilarity "---a---b" "b" 1000 = 1 ∧
    contentSimilarity "---a---b" "a" 1000 = 0 := by
  refine ⟨by decide, by decide, by decide, by decide, by decide⟩

theorem toFinset_dedupKeepFirst {α : Type} [DecidableEq α] (l : List α) :
    (dedupKeepFirst l).toFinset = l.toFinset := by
  ext x
  simp [mem_dedupKeepFirst]

theorem jaccardOfLists_eq (w1 w2 : List String) (h1 : w1.Nodup) (h2 : w2.Nodup) :
    (if w1.length = 0 ∨ w2.length = 0 then 0
     else ratDiv (w1.filter (fun w => decide (w ∈ w2))).length
       (dedupKeepFirst (w1 ++ w2)).length) = jaccardF w1.toFinset w2.toFinset := by
  unfold jaccardF
  by_cases h : w1.length = 0 ∨ w2.length = 0
  · rw [if_pos h]
    rcases h with h | h
    · have he : w1 = [] := List.length_eq_zero.mp h
      subst he
      simp [Finset.inter_comm, ratDiv_zero_left]
    · have he : w2 = [] := List.length_eq_zero.mp h
      subst he
      simp [ratDiv_zero_left]
  · rw [if_neg h]
    push_neg at h
    have hne : (w1.toFinset ∪ w2.toFinset).card ≠ 0 := by
      rw [← dedup_append_length_eq_union_card]
      intro hz
      have h1' : w1 = [] := by
        cases hw : w1 with
        | nil => rfl
        | cons a t =>
          exfalso
          have ha : a ∈ dedupKeepFirst (w1 ++ w2) := by
            rw [mem_dedupKeepFirst]
            exact List.mem_append_left _ (hw ▸ List.mem_cons_self _ _)
          rw [List.length_eq_zero.mp hz] at ha
          exact List.not_mem_nil a ha
      exact h.1 (by rw [h1']; rfl)
    rw [if_neg hne, filter_mem_length_eq_inter_card h1, dedup_append_length_eq_union_card]

/-- C8 (amended): `contentSimilarity` compares the Jaccard similarity of the
word sets of the bodies obtained by dropping everything through the second
occurrence of the SUBSTRING `---` (when the content starts with `---` and a
second occurrence exists; trimmed), truncated to `maxChars` AFTER this
stripping. -/
theorem claim_C8_contentSimilarity_amended :
    (∀ content : List Char, extractBody content = extractBodyAmended content) ∧
    ∀ (c1 c2 : String) (maxChars : ℕ),
      contentSimilarity c1 c2 maxChars =
        jaccardF
          (((wordRuns (((extractBodyAmended c1.data).take maxChars).map asciiToLower)).map
            String.mk).toFinset)
          (((wordRuns (((extractBodyAmended c2.data).take maxChars).map asciiToLower)).map
            String.mk).toFinset) := by
  refine ⟨extractBody_eq_amended, ?_⟩
  intro c1 c2 mc
  unfold contentSimilarity contentWordSet
  rw [jaccardOfLists_eq _ _ (nodup_dedupKeepFirst _) (nodup_dedupKeepFirst _),
    toFinset_dedupKeepFirst, toFinset_dedupKeepFirst, extractBody_eq_amended,
    extractBody_eq_amended]

/-! ### Content refinement (`refineWithContent`) -/

/-- One refinement iteration: read both files (reads may fail — the `try` /
`catch` of the source is the `Option` match), score on success, mark unscored
with `likelyDuplicate = false` on failure. -/
def refineOne (readContent : SFile → Option String) (contentThreshold : ℚ) (maxChars : ℕ)
    (item : Candidate) : Candidate :=
  match readContent item.file1, readContent item.file2 with
  | some content1, some content2 =>
    { item with
      contentSimilarity := some (contentSimilarity content1 content2 maxChars),
      likelyDuplicate :=
        some (decide (contentThreshold ≤ contentSimilarity content1 content2 maxChars)) }
  | _, _ =>
    { item with contentSimilarity := none, likelyDuplicate := some false }

/-- The re-sort key: `titleSimilarity + (contentSimilarity || 0)`. -/
def refineSortKey (c : Candidate) : ℚ :=
  c.titleSimilarity + c.contentSimilarity.getD 0

/-- Embedding of `refineWithContent` (`part_003`): per-candidate refinement
(empty under a pre-set abort signal), then a stable descending sort by combined
score.  Total — no failure of a single read escapes the per-item handler. -/
def refineWithContent (readContent : SFile → Option String) (candidates : List Candidate)
    (contentThreshold : ℚ) (maxChars : ℕ) (aborted : Bool) : List Candidate :=
  stableSortBy (fun a b => decide (refineSortKey b ≤ refineSortKey a))
    (if aborted then []
     else candidates.map (refineOne readContent contentThreshold maxChars))

/-! Sortedness of the key-based stable sort. -/

theorem insertBy_key_sorted {α : Type} (k : α → ℚ) (x : α) :
    ∀ l, List.Pairwise (fun a b => k b ≤ k a) l →
      List.Pairwise (fun a b => k b ≤ k a)
        (insertBy (fun a b => decide (k b ≤ k a)) x l)
  | [], _ => List.pairwise_singleton _ _
  | y :: t, h => by
    obtain ⟨hhead, htail⟩ := List.pairwise_cons.mp h
    unfold insertBy
    by_cases hle : k x ≤ k y
    · rw [if_pos (by simpa using hle)]
      refine List.pairwise_cons.mpr ⟨?_, insertBy_key_sorted k x t htail⟩
      intro b hb
      have hb' := (insertBy_perm (fun a b => decide (k b ≤ k a)) x t).mem_iff.mp hb
      rcases List.mem_cons.mp hb' with he | hm
      · rw [he]
        exact hle
      · exact hhead b hm
    · rw [if_neg (by simpa using hle)]
      have hxy : k y ≤ k x := le_of_not_le hle
      refine List.pairwise_cons.mpr ⟨?_, h⟩
      intro b hb
      rcases List.mem_cons.mp hb with he | hm
      · rw [he]
        exact hxy
      · exact le_trans (hhead b hm) hxy

theorem stableSortBy_key_sorted_aux {α : Type} (k : α → ℚ) :
    ∀ (l acc : List α), List.Pairwise (fun a b => k b ≤ k a) acc →
      List.Pairwise (fun a b => k b ≤ k a)
        (l.foldl (fun a x => insertBy (fun a b => decide (k b ≤ k a)) x a) acc)
  | [], _, h => h
  | x :: t, acc, h => by
    rw [List.foldl_cons]
    exact stableSortBy_key_sorted_aux k t _ (insertBy_key_sorted k x acc h)

theorem stableSortBy_key_sorted {α : Type} (k : α → ℚ) (l : List α) :
    List.Pairwise (fun a b => k b ≤ k a)
      (stableSortBy (fun a b => decide (k b ≤ k a)) l) :=
  stableSortBy_key_sorted_aux k l [] List.Pairwise.nil

theorem refineOne_fields (readContent : SFile → Option String) (t : ℚ) (mc : ℕ)
    (c : Candidate) :
    (refineOne readContent t mc c).file1 = c.file1 ∧
    (refineOne readContent t mc c).file2 = c.file2 ∧
    (refineOne readContent t mc c).titleSimilarity = c.titleSimilarity := by
  unfold refineOne
  cases readContent c.file1 with
  | none => exact ⟨rfl, rfl, rfl⟩
  | some s1 =>
    cases readContent c.file2 with
    | none => exact ⟨rfl, rfl, rfl⟩
    | some s2 => exact ⟨rfl, rfl, rfl⟩

/-- C7: a failed content read never aborts refinement — the affected candidate
stays in the output with no content score and `likelyDuplicate = false`, every
other candidate is still processed (the output has exactly one entry per
input), and successful reads yield a content score with
`likelyDuplicate = (score ≥ threshold)`.  Totality of the embedded function
reflects that the per-item `catch` keeps the whole pass from raising. -/
theorem claim_C7_refine_read_failure
    (readContent : SFile → Option String) (cands : List Candidate) (t : ℚ) (mc : ℕ) :
    (refineWithContent readContent cands t mc false).length = cands.length ∧
    (∀ c ∈ cands, (readContent c.file1 = none ∨ readContent c.file2 = none) →
      ∃ c' ∈ refineWithContent readContent cands t mc false,
        c'.file1 = c.file1 ∧ c'.file2 = c.file2 ∧ c'.titleSimilarity = c.titleSimilarity ∧
        c'.contentSimilarity = none ∧ c'.likelyDuplicate = some false) ∧
    (∀ c ∈ cands, ∀ s1 s2, readContent c.file1 = some s1 → readContent c.file2 = some s2 →
      ∃ c' ∈ refineWithContent readContent cands t mc false,
        c'.file1 = c.file1 ∧ c'.file2 = c.file2 ∧ c'.titleSimilarity = c.titleSimilarity ∧
        c'.contentSimilarity = some (contentSimilarity s1 s2 mc) ∧
        c'.likelyDuplicate = some (decide (t ≤ contentSimilarity s1 s2 mc))) := by
  have hperm : (refineWithContent readContent cands t mc false).Perm
      (cands.map (refineOne readContent t mc)) := by
    unfold refineWithContent
    rw [if_neg (by simp)]
    exact stableSortBy_perm _ _
  refine ⟨by rw [hperm.length_eq, List.length_map], ?_, ?_⟩
  · intro c hc hfail
    refine ⟨refineOne readContent t mc c,
      hperm.mem_iff.mpr (List.mem_map_of_mem _ hc), ?_⟩
    obtain ⟨hf1, hf2, hts⟩ := refineOne_fields readContent t mc c
    refine ⟨hf1, hf2, hts, ?_, ?_⟩
    · rcases hfail with h1 | h2
      · unfold refineOne
        rw [h1]
      · cases hr1 : readContent c.file1 with
        | none =>
          unfold refineOne
          rw [hr1]
        | some s1 =>
          unfold refineOne
          rw [hr1, h2]
    · rcases hfail with h1 | h2
      · unfold refineOne
        rw [h1]
      · cases hr1 : readContent c.file1 with
        | none =>
          unfold refineOne
          rw [hr1]
        | some s1 =>
          unfold refineOne
          rw [hr1, h2]
  · intro c hc s1 s2 h1 h2
    refine ⟨refineOne readContent t mc c,
      hperm.mem_iff.mpr (List.mem_map_of_mem _ hc), ?_⟩
    obtain ⟨hf1, hf2, hts⟩ := refineOne_fields readContent t mc c
    refine ⟨hf1, hf2, hts, ?_, ?_⟩
    · unfold refineOne
      rw [h1, h2]
    · unfold refineOne
      rw [h1, h2]

/-- C7 witness: one unreadable candidate and one readable candidate. -/
theorem claim_C7_witness :
    ∃ c' ∈ refineWithContent
        (fun f => if f.path = "a.md" then some "alpha" else none)
        [{ file1 := ⟨"a.md", "a", 0⟩, file2 := ⟨"gone.md", "b", 0⟩,
           titleSimilarity := ratDiv 1 2, contentSimilarity := none,
           likelyDuplicate := none }]
        (ratDiv 6 10) 1000 false,
      c'.file1 = (⟨"a.md", "a", 0⟩ : SFile) ∧ c'.file2 = (⟨"gone.md", "b", 0⟩ : SFile) ∧
      c'.titleSimilarity = ratDiv 1 2 ∧
      c'.contentSimilarity = none ∧ c'.likelyDuplicate = some false := by
  exact (claim_C7_refine_read_failure
    (fun f => if f.path = "a.md" then some "alpha" else none)
    [{ file1 := ⟨"a.md", "a", 0⟩, file2 := ⟨"gone.md", "b", 0⟩,
       titleSimilarity := ratDiv 1 2, contentSimilarity := none,
       likelyDuplicate := none }]
    (ratDiv 6 10) 1000).2.1
    { file1 := ⟨"a.md", "a", 0⟩, file2 := ⟨"gone.md", "b", 0⟩,
      titleSimilarity := ratDiv 1 2, contentSimilarity := none, likelyDuplicate := none }
    (List.mem_singleton_self _) (by decide)

/-- C10 (implicit): refinement with no cancellation is a per-item map followed
by a re-sort — a permutation of the refined inputs, each keeping `file1`,
`file2` and `titleSimilarity`, ordered descending by title-plus-content score
(an absent content score counting as 0); nothing is dropped or introduced. -/
theorem claim_C10_refine_permutation
    (readContent : SFile → Option String) (cands : List Candidate) (t : ℚ) (mc : ℕ) :
    (refineWithContent readContent cands t mc false).Perm
      (cands.map (refineOne readContent t mc)) ∧
    (∀ c ∈ cands, (refineOne readContent t mc c).file1 = c.file1 ∧
      (refineOne readContent t mc c).file2 = c.file2 ∧
      (refineOne readContent t mc c).titleSimilarity = c.titleSimilarity) ∧
    List.Pairwise (fun a b => refineSortKey b ≤ refineSortKey a)
      (refineWithContent readContent cands t mc false) := by
  refine ⟨?_, fun c _ => refineOne_fields readContent t mc c, ?_⟩
  · unfold refineWithContent
    rw [if_neg (by simp)]
    exact stableSortBy_perm _ _
  · unfold refineWithContent
    exact stableSortBy_key_sorted refineSortKey _

/-! ### Cache manager (src/cache.ts) -/

/-- The settings fingerprint recorded in a cache entry. -/
structure CacheSettingsFp where
  titleThreshold : ℚ
  enableContent : Bool
  contentThreshold : ℚ
  contentChars : ℕ
deriving DecidableEq

/-- A serialized group, as persisted (candidate detail is not kept). -/
structure SerializedDuplicateGroup where
  normalizedTitle : String
  originalTitles : List String
  filePaths : List String
deriving DecidableEq

/-- A cache entry. -/
structure CacheEntry where
  folderPath : String
  scanTimestamp : ℕ
  fileCount : ℕ
  maxMtime : ℕ
  groups : List SerializedDuplicateGroup
  settings : CacheSettingsFp
deriving DecidableEq

/-- The plugin's similarity/scan settings (src/types). -/
structure DuplicateReviewerSettings where
  titleSimilarityThreshold : ℚ
  enableContentSimilarity : Bool
  contentSimilarityThreshold : ℚ
  contentCharsToAnalyze : ℕ
  ignoredFolders : List String
  commonPatterns : List String
  maxComparisonPanes : ℕ
deriving DecidableEq

/-- A full group, as produced by `groupDuplicates` (src/types). -/
structure Group where
  normalizedTitle : String
  originalTitles : List String
  files : List SFile
  candidates : List Candidate
deriving DecidableEq

/-- The `CacheManager`'s mutable state: the entry map and the dirty-path set. -/
structure CMState where
  entries : List (String × CacheEntry)
  dirtyPaths : Finset String
deriving DecidableEq

/-- The `maxMtime` fold of `isValid`/`put`. -/
def maxMtimeOf (files : List SFile) : ℕ :=
  files.foldl (fun m f => if m < f.mtime then f.mtime else m) 0

/-- The count/mtime/settings part of `isValid` (the source's sequence of early
`return false` checks, as one conjunction). -/
def fingerprintOk (entry : CacheEntry) (currentFiles : List SFile)
    (settings : DuplicateReviewerSettings) : Bool :=
  decide (currentFiles.length = entry.fileCount) &&
  decide (maxMtimeOf currentFiles = entry.maxMtime) &&
  decide (entry.settings.titleThreshold = settings.titleSimilarityThreshold) &&
  decide (entry.settings.enableContent = settings.enableContentSimilarity) &&
  decide (entry.settings.contentThreshold = settings.contentSimilarityThreshold) &&
  decide (entry.settings.contentChars = settings.contentCharsToAnalyze)

/-- Embedding of `CacheManager.isValid`. -/
def isValid (st : CMState) (entry : CacheEntry) (currentFiles : List SFile)
    (settings : DuplicateReviewerSettings) : Bool :=
  if 0 < st.dirtyPaths.card then
    if entry.folderPath = "/" then false
    else if decide (∃ d ∈ st.dirtyPaths,
        ((entry.folderPath ++ "/").data.isPrefixOf d.data) = true) then false
    else fingerprintOk entry currentFiles settings
  else fingerprintOk entry currentFiles settings

/-- Serialization of a group for `put` (file references reduced to paths). -/
def serializeGroup (g : Group) : SerializedDuplicateGroup :=
  { normalizedTitle := g.normalizedTitle, originalTitles := g.originalTitles,
    filePaths := g.files.map (fun f => f.path) }

/-- The cache entry `put` constructs. -/
def putEntry (folderPath : String) (files : List SFile) (groups : List Group)
    (settings : DuplicateReviewerSettings) (now : ℕ) : CacheEntry :=
  { folderPath := folderPath, scanTimestamp := now, fileCount := files.length,
    maxMtime := maxMtimeOf files, groups := groups.map serializeGroup,
    settings := { titleThreshold := settings.titleSimilarityThreshold,
                  enableContent := settings.enableContentSimilarity,
                  contentThreshold := settings.contentSimilarityThreshold,
                  contentChars := settings.contentCharsToAnalyze } }

/-- Embedding of `CacheManager.put` (`Date.now()` passed in as `now`). -/
def cachePut (st : CMState) (folderPath : String) (files : List SFile)
    (groups : List Group) (settings : DuplicateReviewerSettings) (now : ℕ) : CMState :=
  { st with entries := alistSet st.entries folderPath (putEntry folderPath files groups settings now) }

/-- One group of `CacheManager.deserialize`: resolve each stored path in the
vault (`getFileByPath`); a group with fewer than two resolvable members is
dropped. -/
def deserializeGroup (vault : List SFile) (sg : SerializedDuplicateGroup) : Option Group :=
  if (sg.filePaths.filterMap (fun p => vault.find? (fun f => decide (f.path = p)))).length < 2
  then none
  else some { normalizedTitle := sg.normalizedTitle,
              originalTitles := sg.originalTitles,
              files := sg.filePaths.filterMap (fun p =>
                vault.find? (fun f => decide (f.path = p))),
              candidates := [] }

/-- Embedding of `CacheManager.deserialize`. -/
def deserializeEntry (vault : List SFile) (entry : CacheEntry) : List Group :=
  entry.groups.filterMap (deserializeGroup vault)

/-- `Map.delete`. -/
def alistDelete {α β : Type} [DecidableEq α] (m : List (α × β)) (k : α) : List (α × β) :=
  m.filter (fun p => decide (p.1 ≠ k))

/-- Embedding of `CacheManager.get`: `null` on miss; on staleness, evict and
return `null`; otherwise reconstitute. -/
def cacheGet (st : CMState) (folderPath : String) (currentFiles : List SFile)
    (settings : DuplicateReviewerSettings) (vault : List SFile) :
    CMState × Option (List Group) :=
  match alistGet st.entries folderPath with
  | none => (st, none)
  | some entry =>
    if isValid st entry currentFiles settings
    then (st, some (deserializeEntry vault entry))
    else ({ st with entries := alistDelete st.entries folderPath }, none)

/-! ### C2: the staleness test -/

theorem fingerprintOk_false_iff (entry : CacheEntry) (currentFiles : List SFile)
    (settings : DuplicateReviewerSettings) :
    fingerprintOk entry currentFiles settings = false ↔
      (currentFiles.length ≠ entry.fileCount ∨
       maxMtimeOf currentFiles ≠ entry.maxMtime ∨
       entry.settings.titleThreshold ≠ settings.titleSimilarityThreshold ∨
       entry.settings.enableContent ≠ settings.enableContentSimilarity ∨
       entry.settings.contentThreshold ≠ settings.contentSimilarityThreshold ∨
       entry.settings.contentChars ≠ settings.contentCharsToAnalyze) := by
  unfold fingerprintOk
  constructor
  · intro h
    by_contra hc
    push_neg at hc
    obtain ⟨h1, h2, h3, h4, h5, h6⟩ := hc
    rw [h1, h2, h3, h4, h5, h6] at h
    simp at h
  · intro h
    rcases h with h | h | h | h | h | h <;> simp [h]

theorem isValid_false_iff (st : CMState) (entry : CacheEntry)
    (currentFiles : List SFile) (settings : DuplicateReviewerSettings) :
    isValid st entry currentFiles settings = false ↔
      ((entry.folderPath = "/" ∧ st.dirtyPaths.Nonempty) ∨
       (∃ d ∈ st.dirtyPaths, ((entry.folderPath ++ "/").data.isPrefixOf d.data) = true) ∨
       currentFiles.length ≠ entry.fileCount ∨
       maxMtimeOf currentFiles ≠ entry.maxMtime ∨
       entry.settings.titleThreshold ≠ settings.titleSimilarityThreshold ∨
       entry.settings.enableContent ≠ settings.enableContentSimilarity ∨
       entry.settings.contentThreshold ≠ settings.contentSimilarityThreshold ∨
       entry.settings.contentChars ≠ settings.contentCharsToAnalyze) := by
  unfold isValid
  by_cases hcard : 0 < st.dirtyPaths.card
  · rw [if_pos hcard]
    have hne : st.dirtyPaths.Nonempty := Finset.card_pos.mp hcard
    by_cases hroot : entry.folderPath = "/"
    · rw [if_pos hroot]
      exact iff_of_true rfl (Or.inl ⟨hroot, hne⟩)
    · rw [if_neg hroot]
      by_cases hdirty : ∃ d ∈ st.dirtyPaths,
          ((entry.folderPath ++ "/").data.isPrefixOf d.data) = true
      · rw [if_pos (by simpa using hdirty)]
        exact iff_of_true rfl (Or.inr (Or.inl hdirty))
      · rw [if_neg (by simpa using hdirty)]
        rw [fingerprintOk_false_iff]
        constructor
        · intro h
          exact Or.inr (Or.inr h)
        · intro h
          rcases h with h1 | h | h
          · exact absurd h1.1 hroot
          · exact absurd h hdirty
          · exact h
  · rw [if_neg hcard]
    have hemp : st.dirtyPaths = ∅ := by
      rw [← Finset.card_eq_zero]
      omega
    rw [fingerprintOk_false_iff]
    constructor
    · intro h
      exact Or.inr (Or.inr h)
    · intro h
      rcases h with h1 | h | h
      · exact absurd (hemp ▸ h1.2) Finset.not_nonempty_empty
      · obtain ⟨d, hd, -⟩ := h
        rw [hemp] at hd
        exact absurd hd (Finset.not_mem_empty d)
      · exact h

/-- `dirtyPaths.add(path)` — the vault-event handler marking a path dirty. -/
def markDirty (st : CMState) (p : String) : CMState :=
  { st with dirtyPaths := insert p st.dirtyPaths }

theorem cachePut_entries (st : CMState) (fp : String) (files : List SFile)
    (groups : List Group) (s : DuplicateReviewerSettings) (now : ℕ) :
    (cachePut st fp files groups s now).entries =
      alistSet st.entries fp (putEntry fp files groups s now) := rfl

theorem cachePut_dirty (st : CMState) (fp : String) (files : List SFile)
    (groups : List Group) (s : DuplicateReviewerSettings) (now : ℕ) :
    (cachePut st fp files groups s now).dirtyPaths = st.dirtyPaths := rfl

theorem cacheGet_none_of_invalid (st : CMState) (fp : String) (files : List SFile)
    (settings : DuplicateReviewerSettings) (vault : List SFile) (entry : CacheEntry)
    (hget : alistGet st.entries fp = some entry)
    (hinv : isValid st entry files settings = false) :
    (cacheGet st fp files settings vault).2 = none := by
  unfold cacheGet
  rw [hget]
  dsimp only
  rw [if_neg (by rw [hinv]; exact Bool.false_ne_true)]

theorem cacheGet_some_of_valid (st : CMState) (fp : String) (files : List SFile)
    (settings : DuplicateReviewerSettings) (vault : List SFile) (entry : CacheEntry)
    (hget : alistGet st.entries fp = some entry)
    (hval : isValid st entry files settings = true) :
    (cacheGet st fp files settings vault).2 = some (deserializeEntry vault entry) := by
  unfold cacheGet
  rw [hget]
  dsimp only
  rw [if_pos hval]

/-- C2 second part: after `put`, a change in any one of the four similarity
settings makes the next `get` with the same files return `null`. -/
theorem cacheGet_after_settings_change (st : CMState) (fp : String) (files : List SFile)
    (groups : List Group) (s s2 : DuplicateReviewerSettings) (now : ℕ) (vault : List SFile)
    (hch : s2.titleSimilarityThreshold ≠ s.titleSimilarityThreshold ∨
           s2.enableContentSimilarity ≠ s.enableContentSimilarity ∨
           s2.contentSimilarityThreshold ≠ s.contentSimilarityThreshold ∨
           s2.contentCharsToAnalyze ≠ s.contentCharsToAnalyze) :
    (cacheGet (cachePut st fp files groups s now) fp files s2 vault).2 = none := by
  refine cacheGet_none_of_invalid _ fp files s2 vault (putEntry fp files groups s now)
    (by rw [cachePut_entries]; exact alistGet_set_self _ _ _) ?_
  rw [isValid_false_iff]
  refine Or.inr (Or.inr (Or.inr (Or.inr ?_)))
  rcases hch with h | h | h | h
  · exact Or.inl (fun he => h he.symm)
  · exact Or.inr (Or.inl (fun he => h he.symm))
  · exact Or.inr (Or.inr (Or.inl (fun he => h he.symm)))
  · exact Or.inr (Or.inr (Or.inr (fun he => h he.symm)))

/-- C2 third part: after `put`, registering a dirty path inside the scope makes
the next `get` with the same files return `null` (even though the count/mtime
fingerprint still matches). -/
theorem cacheGet_after_dirty_inside (st : CMState) (fp : String) (files : List SFile)
    (groups : List Group) (s : DuplicateReviewerSettings) (now : ℕ) (vault : List SFile)
    (d : String)
    (hd : fp = "/" ∨ ((fp ++ "/").data.isPrefixOf d.data) = true) :
    (cacheGet (markDirty (cachePut st fp files groups s now) d) fp files s vault).2 =
      none := by
  refine cacheGet_none_of_invalid _ fp files s vault (putEntry fp files groups s now)
    (by
      rw [show (markDirty (cachePut st fp files groups s now) d).entries =
        (cachePut st fp files groups s now).entries from rfl, cachePut_entries]
      exact alistGet_set_self _ _ _) ?_
  rw [isValid_false_iff]
  rcases hd with hroot | hpre
  · exact Or.inl ⟨hroot, ⟨d, Finset.mem_insert_self _ _⟩⟩
  · exact Or.inr (Or.inl ⟨d, Finset.mem_insert_self _ _, hpre⟩)

/-- C2: `CacheManager.isValid` returns `false` iff a recorded dirty path falls
inside the entry's scope (any dirty path at all for a root-scope entry; for a
subtree entry only a dirty path with the entry's folder path as a strict
prefix), or the live file count differs from the recorded one, or the maximum
mtime over the live files differs from the recorded one, or any of the four
recorded similarity-configuration values differs from the current settings.
Consequently, after `put`, changing any one of the four similarity settings, or
registering a dirty path that is a descendant of the scope (or any dirty path
for the root scope), makes the next `get` with the same files return `null`. -/
theorem claim_C2_isValid_staleness :
    (∀ (st : CMState) (entry : CacheEntry) (currentFiles : List SFile)
       (settings : DuplicateReviewerSettings),
      isValid st entry currentFiles settings = false ↔
        ((entry.folderPath = "/" ∧ st.dirtyPaths.Nonempty) ∨
         (∃ d ∈ st.dirtyPaths, ((entry.folderPath ++ "/").data.isPrefixOf d.data) = true) ∨
         currentFiles.length ≠ entry.fileCount ∨
         maxMtimeOf currentFiles ≠ entry.maxMtime ∨
         entry.settings.titleThreshold ≠ settings.titleSimilarityThreshold ∨
         entry.settings.enableContent ≠ settings.enableContentSimilarity ∨
         entry.settings.contentThreshold ≠ settings.contentSimilarityThreshold ∨
         entry.settings.contentChars ≠ settings.contentCharsToAnalyze)) ∧
    (∀ (st : CMState) (fp : String) (files : List SFile) (groups : List Group)
       (s s2 : DuplicateReviewerSettings) (now : ℕ) (vault : List SFile),
      (s2.titleSimilarityThreshold ≠ s.titleSimilarityThreshold ∨
       s2.enableContentSimilarity ≠ s.enableContentSimilarity ∨
       s2.contentSimilarityThreshold ≠ s.contentSimilarityThreshold ∨
       s2.contentCharsToAnalyze ≠ s.contentCharsToAnalyze) →
      (cacheGet (cachePut st fp files groups s now) fp files s2 vault).2 = none) ∧
    (∀ (st : CMState) (fp : String) (files : List SFile) (groups : List Group)
       (s : DuplicateReviewerSettings) (now : ℕ) (vault : List SFile) (d : String),
      (fp = "/" ∨ ((fp ++ "/").data.isPrefixOf d.data) = true) →
      (cacheGet (markDirty (cachePut st fp files groups s now) d) fp files s vault).2 = none) :=
  ⟨isValid_false_iff, cacheGet_after_settings_change, cacheGet_after_dirty_inside⟩


/-! ### C3: the cache round-trip -/

theorem filterMap_map_eq_map_of_forall {α β γ : Type} (l : List α) (g : α → β)
    (f : β → Option γ) (h : α → γ) (hf : ∀ a ∈ l, f (g a) = some (h a)) :
    (l.map g).filterMap f = l.map h := by
  induction l with
  | nil => rfl
  | cons x xs ih =>
    rw [List.map_cons, List.filterMap_cons_some (hf x (List.mem_cons_self x xs)),
      List.map_cons, ih (fun a ha => hf a (List.mem_cons_of_mem x ha))]

theorem deserializeGroup_serializeGroup (vault : List SFile) (g : Group)
    (hsize : 2 ≤ g.files.length)
    (hres : ∀ f ∈ g.files, vault.find? (fun x => decide (x.path = f.path)) = some f) :
    deserializeGroup vault (serializeGroup g) =
      some { normalizedTitle := g.normalizedTitle, originalTitles := g.originalTitles,
             files := g.files, candidates := [] } := by
  have hfiles : (serializeGroup g).filePaths.filterMap
      (fun p => vault.find? (fun f => decide (f.path = p))) = g.files := by
    rw [show (serializeGroup g).filePaths = g.files.map (fun f => f.path) from rfl]
    rw [filterMap_map_eq_map_of_forall g.files (fun f => f.path)
      (fun p => vault.find? (fun f => decide (f.path = p))) id
      (fun f hf => hres f hf), List.map_id]
  unfold deserializeGroup
  rw [hfiles]
  rw [if_neg (Nat.not_lt.mpr hsize)]
  rfl

/-- C3 (amended): `put(scope, files, groups, settings)` followed immediately by
`get(scope, files, settings)` returns exactly the stored groups (with the
non-persisted `candidates` reset to `[]`), provided no recorded dirty path lies
inside the scope, every stored group has at least two members, and each member
resolves to itself in the vault by path.  (Unamended, the round-trip fails:
`deserialize` silently drops any stored group with fewer than two resolvable
members, see the counterexample.) -/
theorem claim_C3_cache_roundtrip (st : CMState) (fp : String) (files : List SFile)
    (groups : List Group) (s : DuplicateReviewerSettings) (now : ℕ) (vault : List SFile)
    (hroot : fp = "/" → st.dirtyPaths = ∅)
    (hdirty : ∀ d ∈ st.dirtyPaths, ¬ (((fp ++ "/").data.isPrefixOf d.data) = true))
    (hsize : ∀ g ∈ groups, 2 ≤ g.files.length)
    (hres : ∀ g ∈ groups, ∀ f ∈ g.files,
      vault.find? (fun x => decide (x.path = f.path)) = some f) :
    (cacheGet (cachePut st fp files groups s now) fp files s vault).2 =
      some (groups.map (fun g =>
        { normalizedTitle := g.normalizedTitle, originalTitles := g.originalTitles,
          files := g.files, candidates := [] })) := by
  have hval : isValid (cachePut st fp files groups s now) (putEntry fp files groups s now)
      files s = true := by
    cases hv : isValid (cachePut st fp files groups s now)
      (putEntry fp files groups s now) files s with
    | true => rfl
    | false =>
      exfalso
      rw [isValid_false_iff] at hv
      rcases hv with ⟨h1, h2⟩ | ⟨d, hd, hp⟩ | h | h | h | h | h | h
      · rw [show (cachePut st fp files groups s now).dirtyPaths = st.dirtyPaths from rfl,
          hroot h1] at h2
        exact Finset.not_nonempty_empty h2
      · exact hdirty d hd hp
      · exact h rfl
      · exact h rfl
      · exact h rfl
      · exact h rfl
      · exact h rfl
      · exact h rfl
  rw [cacheGet_some_of_valid (cachePut st fp files groups s now) fp files s vault
    (putEntry fp files groups s now)
    (by rw [cachePut_entries]; exact alistGet_set_self _ _ _) hval]
  have hdes : deserializeEntry vault (putEntry fp files groups s now) =
      groups.map (fun g =>
        { normalizedTitle := g.normalizedTitle, originalTitles := g.originalTitles,
          files := g.files, candidates := [] }) := by
    show (groups.map serializeGroup).filterMap (deserializeGroup vault) = _
    exact filterMap_map_eq_map_of_forall groups serializeGroup (deserializeGroup vault) _
      (fun g hg => deserializeGroup_serializeGroup vault g (hsize g hg) (hres g hg))
  rw [hdes]

def cmInit : CMState := ⟨[], ∅⟩

def sfA : SFile := ⟨"a.md", "a", 1⟩

def sfB : SFile := ⟨"b.md", "b", 2⟩

def setA : DuplicateReviewerSettings := ⟨ratDiv 1 2, true, ratDiv 7 10, 1000, [], [], 3⟩

def grpAB : Group := ⟨"t", ["a", "b"], [sfA, sfB], []⟩

def grpSolo : Group := ⟨"t", ["a"], [sfA], []⟩

/-- C3 counterexample to the unamended claim: a stored group with a single
(resolvable) member is silently dropped by `deserialize`, so an immediate `get`
returns `some []` — non-null, but without the stored group's membership. -/
theorem claim_C3_counterexample :
    (cacheGet (cachePut cmInit "f" [sfA] [grpSolo] setA 0) "f" [sfA] setA [sfA]).2 =
      some [] ∧ grpSolo.files.map (fun f => f.path) = ["a.md"] :=
  ⟨rfl, rfl⟩

theorem claim_C3_witness :
    (cacheGet (cachePut cmInit "/" [sfA, sfB] [grpAB] setA 5) "/" [sfA, sfB] setA
      [sfA, sfB]).2 =
      some ([grpAB].map (fun g =>
        { normalizedTitle := g.normalizedTitle, originalTitles := g.originalTitles,
          files := g.files, candidates := [] })) :=
  claim_C3_cache_roundtrip cmInit "/" [sfA, sfB] [grpAB] setA 5 [sfA, sfB]
    (fun _ => rfl) (by decide) (by decide) (by decide)


/-! ### The scan pipeline (`part_003`) and the orchestrator (src/main) -/

/-- Parsed-YAML values, as far as `parseExclusionTargets` inspects them:
strings, arrays, and anything else (ignored by the walk). -/
inductive Yaml where
  | str : String → Yaml
  | arr : List Yaml → Yaml
  | other : Yaml

/-- The environment a scan runs in: the vault's markdown files in
`getMarkdownFiles()` order, the `duplicate-exclusion` frontmatter value per
file path (from the metadata cache), and `vault.cachedRead` (`none` = the read
throws). -/
structure ScanEnv where
  vault : List SFile
  exclusionRaw : String → Option Yaml
  readContent : SFile → Option String

/-- JS `String.prototype.includes`: the needle occurs as a contiguous
substring. -/
def containsSub (l sub : List Char) : Bool :=
  (List.range (l.length + 1)).any (fun i => sub.isPrefixOf (l.drop i))

/-- Embedding of `shouldSkipPath`: an ignored-folder needle occurs anywhere in
the path, or some `/`-separated segment starts with a dot. -/
def shouldSkipPath (path : String) (ignoredFolders : List String) : Bool :=
  ignoredFolders.any (fun ig => containsSub path.data ig.data) ||
  (path.data.splitOn '/').any (fun part => decide (part.head? = some '.'))

/-- Embedding of `collectMarkdownFiles`: scope filter (`prefix === "" ||
path.startsWith(prefix)`) plus skip filter over `getMarkdownFiles()`. -/
def collectMarkdownFiles (env : ScanEnv) (folderPath : String)
    (ignoredFolders : List String) : List SFile :=
  env.vault.filter (fun file =>
    (decide (folderPath = "/") || (folderPath ++ "/").data.isPrefixOf file.path.data) &&
    !shouldSkipPath file.path ignoredFolders)

/-- `s.replace(/^\[\[/, "")`. -/
def stripWikiOpen : List Char → List Char
  | '[' :: '[' :: rest => rest
  | l => l

/-- `s.replace(/\]\]$/, "")`. -/
def stripWikiClose (l : List Char) : List Char :=
  if 2 ≤ l.length ∧ l.drop (l.length - 2) = [']', ']'] then l.take (l.length - 2) else l

/-- The string-leaf cleanup of `parseExclusionTargets`' `walk`: trim, strip a
leading `[[` and a trailing `]]`, cut at the first `|`, trim again. -/
def cleanTarget (value : String) : List Char :=
  trimJS ((stripWikiClose (stripWikiOpen (trimJS value.data))).takeWhile
    (fun c => decide (c ≠ '|')))

mutual

/-- Embedding of `parseExclusionTargets`: every cleaned non-empty string leaf,
in walk order. -/
def parseExclusionTargets : Yaml → List String
  | .str s => if (cleanTarget s).isEmpty then [] else [String.mk (cleanTarget s)]
  | .arr l => parseTargetsList l
  | .other => []

def parseTargetsList : List Yaml → List String
  | [] => []
  | v :: vs => parseExclusionTargets v ++ parseTargetsList vs

end

/-- ASCII `toLowerCase` of a string (the embedding's model of JS
`toLowerCase`, as in the title pipeline). -/
def lowerStr (s : String) : String := String.mk (s.data.map asciiToLower)

/-- Embedding of `resolveLink`: exact path, exact path + ".md", then the first
case-insensitive basename match; `none` when nothing resolves. -/
def resolveLink (vault : List SFile) (target : String) : Option String :=
  match vault.find? (fun f => decide (f.path = target)) with
  | some f => some f.path
  | none =>
    match vault.find? (fun f => decide (f.path = target ++ ".md")) with
    | some f => some f.path
    | none =>
      match vault.find? (fun f => decide (lowerStr f.basename = lowerStr target)) with
      | some f => some f.path
      | none => none

/-- Embedding of `buildExclusionMap`: path → resolved exclusion targets, empty
sets not recorded. -/
def buildExclusionMap (env : ScanEnv) (files : List SFile) :
    List (String × Finset String) :=
  files.foldl (fun m file =>
    match env.exclusionRaw file.path with
    | none => m
    | some raw =>
      if 0 < ((parseExclusionTargets raw).filterMap (resolveLink env.vault)).toFinset.card
      then alistSet m file.path
        ((parseExclusionTargets raw).filterMap (resolveLink env.vault)).toFinset
      else m) []

/-- The pair test of `filterExcludedCandidates`, on the two paths: either
file's recorded exclusion set contains the other's path. -/
def excludedPaths (em : List (String × Finset String)) (p1 p2 : String) : Bool :=
  (match alistGet em p1 with
   | some s => decide (p2 ∈ s)
   | none => false) ||
  (match alistGet em p2 with
   | some s => decide (p1 ∈ s)
   | none => false)

def excludedPair (em : List (String × Finset String)) (c : Candidate) : Bool :=
  excludedPaths em c.file1.path c.file2.path

/-- Embedding of `filterExcludedCandidates`. -/
def filterExcludedCandidates (candidates : List Candidate)
    (em : List (String × Finset String)) : List Candidate :=
  candidates.filter (fun c => !excludedPair em c)

/-- A fresh `DuplicateGroup` for a normalized title. -/
def emptyGroup (key : String) : Group :=
  { normalizedTitle := key, originalTitles := [], files := [], candidates := [] }

/-- `group.files.push` guarded by `some((f) => f.path === ...)`. -/
def addFileIfNew (files : List SFile) (f : SFile) : List SFile :=
  if files.any (fun x => decide (x.path = f.path)) then files else files ++ [f]

/-- One candidate folded into its group: both basenames into the
`originalTitles` set, the candidate appended, both files appended if their
paths are new. -/
def addCandidate (g : Group) (c : Candidate) : Group :=
  { normalizedTitle := g.normalizedTitle,
    originalTitles := insertIfNew (insertIfNew g.originalTitles c.file1.basename)
      c.file2.basename,
    files := addFileIfNew (addFileIfNew g.files c.file1) c.file2,
    candidates := g.candidates ++ [c] }

/-- One step of `groupDuplicates`' loop on the insertion-ordered title map. -/
def groupStep (m : List (String × Group)) (c : Candidate) : List (String × Group) :=
  alistSet m (normalizeTitle c.file1.basename)
    (addCandidate ((alistGet m (normalizeTitle c.file1.basename)).getD
      (emptyGroup (normalizeTitle c.file1.basename))) c)

/-- Embedding of `groupDuplicates`: fold into the title map, take the values,
stable-sort descending by member count. -/
def groupDuplicates (candidates : List Candidate) : List Group :=
  stableSortBy (fun a b => decide (b.files.length ≤ a.files.length))
    ((candidates.foldl groupStep []).map (fun p => p.2))

/-- The scan's candidate list after the frontmatter exclusion filter. -/
def scanFiltered (env : ScanEnv) (folderPath : String)
    (settings : DuplicateReviewerSettings) (aborted : Bool) : List Candidate :=
  filterExcludedCandidates
    (findTitleDuplicates (collectMarkdownFiles env folderPath settings.ignoredFolders)
      settings.titleSimilarityThreshold aborted)
    (buildExclusionMap env (collectMarkdownFiles env folderPath settings.ignoredFolders))

/-- The scan's candidate list after optional content refinement
(`refine && candidates.length > 0`). -/
def scanCandidates (env : ScanEnv) (folderPath : String)
    (settings : DuplicateReviewerSettings) (refine aborted : Bool) : List Candidate :=
  if refine && decide (0 < (scanFiltered env folderPath settings aborted).length)
  then refineWithContent env.readContent (scanFiltered env folderPath settings aborted)
    settings.contentSimilarityThreshold settings.contentCharsToAnalyze aborted
  else scanFiltered env folderPath settings aborted

/-- Embedding of `scanForDuplicates`.  The abort signal is modeled as a
constant, so the source's two in-flight `signal?.aborted` early returns
collapse into the single check here. -/
def scanForDuplicates (env : ScanEnv) (folderPath : String)
    (settings : DuplicateReviewerSettings) (refine aborted : Bool) : List Group :=
  if (collectMarkdownFiles env folderPath settings.ignoredFolders).length < 2 then []
  else if aborted then []
  else groupDuplicates (scanCandidates env folderPath settings refine aborted)

/-- Embedding of `CacheManager.clearDirtyPathsForFolder`. -/
def clearDirtyPathsForFolder (st : CMState) (folderPath : String) : CMState :=
  if folderPath = "/" then { st with dirtyPaths := ∅ }
  else { st with
         dirtyPaths := st.dirtyPaths.filter
           (fun p => ¬ (((folderPath ++ "/").data.isPrefixOf p.data) = true)) }

/-- JS `paths.sort()` (default lexicographic string sort). -/
def sortStrings (l : List String) : List String :=
  stableSortBy (fun a b => !strLt b a) l

/-- `paths.join("\0")`. -/
def joinNul : List String → List Char
  | [] => []
  | [s] => s.data
  | s :: s2 :: rest => s.data ++ '\x00' :: joinNul (s2 :: rest)

/-- The dismissal key of a path list: `[...paths].sort().join("\0")`. -/
def dismissKey (paths : List String) : List Char :=
  joinNul (sortStrings paths)

/-- Embedding of `isDismissed` over the persisted `dismissedGroups` (the
`dismissedSet` is exactly the set of their keys). -/
def isDismissed (dismissed : List (List String)) (paths : List String) : Bool :=
  dismissed.any (fun g => decide (dismissKey g = dismissKey paths))

/-- Embedding of `filterDismissedGroups`. -/
def filterDismissedGroups (dismissed : List (List String)) (groups : List Group) :
    List Group :=
  groups.filter (fun g => !isDismissed dismissed (g.files.map (fun f => f.path)))

/-- The cache-miss tail of `startDuplicateReview`: scan, and unless aborted,
`put` the unfiltered groups, clear the scope's dirty paths, and display the
dismissal-filtered groups (`none` = nothing displayed, no write).  The abort
signal is constant, so the source's post-scan check is the one taken here. -/
def startDuplicateReviewMiss (st : CMState) (dismissed : List (List String))
    (env : ScanEnv) (folderPath : String) (settings : DuplicateReviewerSettings)
    (now : ℕ) (aborted : Bool) : CMState × Option (List Group) :=
  if aborted then (st, none)
  else
    (clearDirtyPathsForFolder
      (cachePut st folderPath (collectMarkdownFiles env folderPath settings.ignoredFolders)
        (scanForDuplicates env folderPath settings settings.enableContentSimilarity aborted)
        settings now) folderPath,
     some (filterDismissedGroups dismissed
       (scanForDuplicates env folderPath settings settings.enableContentSimilarity aborted)))


/-! ### C5: cancellation -/

/-- C5: with the cancellation signal set before the scan begins (and hence at
every check point — the signal is modeled as a constant), `scanForDuplicates`
returns the empty group list (totality of the embedding reflects that
cancellation raises no error), and the orchestrator's cache-miss path performs
no cache write: its `CacheManager` state, entry map and dirty set included, is
returned unchanged and nothing is displayed. -/
theorem claim_C5_cancellation_no_write :
    (∀ (env : ScanEnv) (fp : String) (s : DuplicateReviewerSettings) (r : Bool),
      scanForDuplicates env fp s r true = []) ∧
    (∀ (st : CMState) (dism : List (List String)) (env : ScanEnv) (fp : String)
       (s : DuplicateReviewerSettings) (now : ℕ),
      startDuplicateReviewMiss st dism env fp s now true = (st, none)) := by
  constructor
  · intro env fp s r
    unfold scanForDuplicates
    by_cases h : (collectMarkdownFiles env fp s.ignoredFolders).length < 2
    · rw [if_pos h]
    · rw [if_neg h, if_pos rfl]
  · intro st dism env fp s now
    unfold startDuplicateReviewMiss
    rw [if_pos rfl]

/-! ### C4: exclusion filtering -/

theorem excludedPaths_eq_false_iff (em : List (String × Finset String)) (p1 p2 : String) :
    excludedPaths em p1 p2 = false ↔
      ¬((∃ s, alistGet em p1 = some s ∧ p2 ∈ s) ∨
        (∃ s, alistGet em p2 = some s ∧ p1 ∈ s)) := by
  cases h1 : alistGet em p1 <;> cases h2 : alistGet em p2 <;>
    simp [excludedPaths, h1, h2]

theorem mem_filterExcludedCandidates (cands : List Candidate)
    (em : List (String × Finset String)) (c : Candidate) :
    c ∈ filterExcludedCandidates cands em ↔
      c ∈ cands ∧
      ¬((∃ s, alistGet em c.file1.path = some s ∧ c.file2.path ∈ s) ∨
        (∃ s, alistGet em c.file2.path = some s ∧ c.file1.path ∈ s)) := by
  unfold filterExcludedCandidates
  rw [List.mem_filter]
  have hb : (!excludedPair em c) = true ↔
      excludedPaths em c.file1.path c.file2.path = false := by
    unfold excludedPair
    cases excludedPaths em c.file1.path c.file2.path <;> simp
  rw [hb, excludedPaths_eq_false_iff]

theorem alistGet_mem {α β : Type} [DecidableEq α] (m : List (α × β)) (k : α) (v : β)
    (h : alistGet m k = some v) : (k, v) ∈ m := by
  unfold alistGet at h
  cases hf : m.find? (fun p => decide (p.1 = k)) with
  | none => rw [hf] at h; exact absurd h (by simp)
  | some p =>
    rw [hf] at h
    have hp2 : p.2 = v := by simpa using h
    have hmem := List.mem_of_find?_eq_some hf
    have hk0 := List.find?_some hf
    have hk : p.1 = k := of_decide_eq_true hk0
    obtain ⟨a, b⟩ := p
    cases hk
    cases hp2
    exact hmem

theorem mem_alistSet {α β : Type} [DecidableEq α] (m : List (α × β)) (k : α) (v : β)
    (x : α × β) (h : x ∈ alistSet m k v) : x = (k, v) ∨ x ∈ m := by
  unfold alistSet at h
  by_cases hany : m.any (fun p => decide (p.1 = k))
  · rw [if_pos hany] at h
    obtain ⟨p, hp, hpe⟩ := List.mem_map.mp h
    by_cases hpk : p.1 = k
    · rw [if_pos hpk] at hpe
      exact Or.inl hpe.symm
    · rw [if_neg hpk] at hpe
      exact Or.inr (hpe ▸ hp)
  · rw [if_neg hany] at h
    rcases List.mem_append.mp h with hm | he
    · exact Or.inr hm
    · exact Or.inl (by simpa using he)

theorem addCandidate_cands (g : Group) (c : Candidate) :
    (addCandidate g c).candidates = g.candidates ++ [c] := rfl

theorem groupFold_cands_mem (cands : List Candidate) :
    ∀ (l : List Candidate) (m : List (String × Group)),
      (∀ c ∈ l, c ∈ cands) →
      (∀ kg ∈ m, ∀ c ∈ kg.2.candidates, c ∈ cands) →
      ∀ kg ∈ l.foldl groupStep m, ∀ c ∈ kg.2.candidates, c ∈ cands
  | [], _, _, hm, kg, hkg => hm kg hkg
  | x :: t, m, hl, hm, kg, hkg => by
    rw [List.foldl_cons] at hkg
    refine groupFold_cands_mem cands t (groupStep m x)
      (fun c hc => hl c (List.mem_cons_of_mem x hc)) ?_ kg hkg
    intro kg' hkg' c hc
    rcases mem_alistSet _ _ _ kg' hkg' with he | hmem
    · rw [he] at hc
      rw [show ((normalizeTitle x.file1.basename,
          addCandidate ((alistGet m (normalizeTitle x.file1.basename)).getD
            (emptyGroup (normalizeTitle x.file1.basename))) x) :
          String × Group).2.candidates =
        (addCandidate ((alistGet m (normalizeTitle x.file1.basename)).getD
          (emptyGroup (normalizeTitle x.file1.basename))) x).candidates from rfl,
        addCandidate_cands] at hc
      rcases List.mem_append.mp hc with hcg | hcx
      · cases hg : alistGet m (normalizeTitle x.file1.basename) with
        | none =>
          rw [hg, Option.getD_none] at hcg
          simp [emptyGroup] at hcg
        | some g =>
          rw [hg, Option.getD_some] at hcg
          exact hm (normalizeTitle x.file1.basename, g) (alistGet_mem _ _ _ hg) c hcg
      · rw [List.mem_singleton.mp hcx]
        exact hl x (List.mem_cons_self x t)
    · exact hm kg' hmem c hc

theorem mem_groupDuplicates_cands (cands : List Candidate) (g : Group)
    (hg : g ∈ groupDuplicates cands) : ∀ c ∈ g.candidates, c ∈ cands := by
  unfold groupDuplicates at hg
  rw [mem_stableSortBy] at hg
  obtain ⟨kg, hkg, hpe⟩ := List.mem_map.mp hg
  intro c hc
  refine groupFold_cands_mem cands cands [] (fun c hc => hc)
    (fun kg h => absurd h (List.not_mem_nil kg)) kg hkg c ?_
  rw [hpe]
  exact hc

theorem scanCandidates_paths (env : ScanEnv) (fp : String)
    (s : DuplicateReviewerSettings) (r a : Bool) (c : Candidate)
    (hc : c ∈ scanCandidates env fp s r a) :
    ∃ c0 ∈ scanFiltered env fp s a, c.file1.path = c0.file1.path ∧
      c.file2.path = c0.file2.path := by
  unfold scanCandidates at hc
  by_cases hr : (r && decide (0 < (scanFiltered env fp s a).length)) = true
  · rw [if_pos hr] at hc
    unfold refineWithContent at hc
    rw [mem_stableSortBy] at hc
    cases a with
    | true =>
      rw [if_pos rfl] at hc
      exact absurd hc (List.not_mem_nil c)
    | false =>
      rw [if_neg (by simp)] at hc
      obtain ⟨c0, hc0, he⟩ := List.mem_map.mp hc
      obtain ⟨h1, h2, -⟩ := refineOne_fields env.readContent s.contentSimilarityThreshold
        s.contentCharsToAnalyze c0
      exact ⟨c0, hc0, by rw [← he, h1], by rw [← he, h2]⟩
  · rw [if_neg hr] at hc
    exact ⟨c, hc, rfl, rfl⟩

/-- C4: exclusion filtering is bidirectional and complete.  A candidate
survives `filterExcludedCandidates` iff it was in the input and neither file's
recorded exclusion set contains the other's path (regardless of reciprocity);
the survivors are the input candidates themselves, unchanged and in order (a
sublist); and in a full uncancelled scan no group's candidate pair is excluded
by the frontmatter exclusion map, so an excluded pair that would otherwise pass
both thresholds is absent from the final grouped output. -/
theorem claim_C4_exclusion_bidirectional :
    (∀ (cands : List Candidate) (em : List (String × Finset String)) (c : Candidate),
      c ∈ filterExcludedCandidates cands em ↔
        c ∈ cands ∧
        ¬((∃ s, alistGet em c.file1.path = some s ∧ c.file2.path ∈ s) ∨
          (∃ s, alistGet em c.file2.path = some s ∧ c.file1.path ∈ s))) ∧
    (∀ (cands : List Candidate) (em : List (String × Finset String)),
      (filterExcludedCandidates cands em).Sublist cands) ∧
    (∀ (env : ScanEnv) (fp : String) (s : DuplicateReviewerSettings) (r : Bool),
      ∀ g ∈ scanForDuplicates env fp s r false, ∀ c ∈ g.candidates,
        ¬((∃ s2, alistGet (buildExclusionMap env
              (collectMarkdownFiles env fp s.ignoredFolders)) c.file1.path = some s2 ∧
            c.file2.path ∈ s2) ∨
          (∃ s2, alistGet (buildExclusionMap env
              (collectMarkdownFiles env fp s.ignoredFolders)) c.file2.path = some s2 ∧
            c.file1.path ∈ s2))) := by
  refine ⟨mem_filterExcludedCandidates, fun cands em => List.filter_sublist _, ?_⟩
  intro env fp s r g hg c hc
  unfold scanForDuplicates at hg
  by_cases hlen : (collectMarkdownFiles env fp s.ignoredFolders).length < 2
  · rw [if_pos hlen] at hg
    exact absurd hg (List.not_mem_nil g)
  · rw [if_neg hlen, if_neg (by simp)] at hg
    have hcand := mem_groupDuplicates_cands _ g hg c hc
    obtain ⟨c0, hc0, hp1, hp2⟩ := scanCandidates_paths env fp s r false c hcand
    unfold scanFiltered at hc0
    have h0 := (mem_filterExcludedCandidates _ _ c0).mp hc0
    rw [hp1, hp2]
    exact h0.2


/-! ### C6: dismissal as a presentation-layer filter -/

theorem strData_inj {a b : String} (h : a.data = b.data) : a = b := by
  cases a
  cases b
  exact congrArg String.mk (by simpa using h)

theorem joinNul_inj : ∀ (l1 l2 : List String), l1 ≠ [] → l2 ≠ [] →
    (∀ p ∈ l1, '\x00' ∉ p.data) → (∀ p ∈ l2, '\x00' ∉ p.data) →
    joinNul l1 = joinNul l2 → l1 = l2
  | [], _, h, _, _, _, _ => absurd rfl h
  | _ :: _, [], _, h, _, _, _ => absurd rfl h
  | [a], [b], _, _, _, _, h => by
    rw [strData_inj (show a.data = b.data from h)]
  | [a], b :: b2 :: bs, _, _, ha, _, h => by
    exfalso
    apply ha a (List.mem_singleton_self a)
    rw [show a.data = joinNul [a] from rfl, h,
      show joinNul (b :: b2 :: bs) = b.data ++ '\x00' :: joinNul (b2 :: bs) from rfl]
    exact List.mem_append_right _ (List.mem_cons_self _ _)
  | a :: a2 :: as, [b], _, _, _, hb, h => by
    exfalso
    apply hb b (List.mem_singleton_self b)
    rw [show b.data = joinNul [b] from rfl, ← h,
      show joinNul (a :: a2 :: as) = a.data ++ '\x00' :: joinNul (a2 :: as) from rfl]
    exact List.mem_append_right _ (List.mem_cons_self _ _)
  | a :: a2 :: as, b :: b2 :: bs, _, _, ha, hb, h => by
    obtain ⟨h1, h2⟩ := append_sep_inj '\x00' a.data b.data (joinNul (a2 :: as))
      (joinNul (b2 :: bs)) (ha a (List.mem_cons_self _ _)) (hb b (List.mem_cons_self _ _))
      (show a.data ++ '\x00' :: joinNul (a2 :: as) =
        b.data ++ '\x00' :: joinNul (b2 :: bs) from h)
    rw [strData_inj h1,
      joinNul_inj (a2 :: as) (b2 :: bs) (by simp) (by simp)
        (fun p hp => ha p (List.mem_cons_of_mem a hp))
        (fun p hp => hb p (List.mem_cons_of_mem b hp)) h2]

theorem sortStrings_ne_nil {l : List String} (h : l ≠ []) : sortStrings l ≠ [] := by
  intro hc
  apply h
  have hlen : l.length = 0 := by
    rw [← (stableSortBy_perm (fun a b => !strLt b a) l).length_eq,
      show stableSortBy (fun a b => !strLt b a) l = sortStrings l from rfl, hc]
    rfl
  exact List.length_eq_zero.mp hlen

theorem isDismissed_iff (dism : List (List String)) (paths : List String)
    (hne : paths ≠ []) (hnul : ∀ p ∈ paths, '\x00' ∉ p.data)
    (hd : ∀ d ∈ dism, d ≠ [] ∧ ∀ p ∈ d, '\x00' ∉ p.data) :
    isDismissed dism paths = true ↔
      ∃ d ∈ dism, sortStrings d = sortStrings paths := by
  unfold isDismissed
  rw [List.any_eq_true]
  constructor
  · rintro ⟨d, hdm, hk⟩
    refine ⟨d, hdm, ?_⟩
    have hk2 : dismissKey d = dismissKey paths := of_decide_eq_true hk
    exact joinNul_inj (sortStrings d) (sortStrings paths)
      (sortStrings_ne_nil (hd d hdm).1) (sortStrings_ne_nil hne)
      (fun p hp => (hd d hdm).2 p ((mem_stableSortBy _ _ _).mp hp))
      (fun p hp => hnul p ((mem_stableSortBy _ _ _).mp hp)) hk2
  · rintro ⟨d, hdm, hs⟩
    exact ⟨d, hdm, decide_eq_true (show dismissKey d = dismissKey paths by
      unfold dismissKey
      rw [hs])⟩

theorem clearDirty_entries (st : CMState) (fp : String) :
    (clearDirtyPathsForFolder st fp).entries = st.entries := by
  unfold clearDirtyPathsForFolder
  split <;> rfl

/-- C6 (amended): on an uncancelled cache-miss scan, the orchestrator stores
the FULL unfiltered group list in the cache entry for the scope, while the
displayed groups are the dismissal-filtered ones; and — provided the paths
involved are free of the NUL character the dismissal keys are joined with, and
the path lists are nonempty — a scanned group is visible iff no stored
dismissed path list sorts to the same sorted path list.  (Unamended, the
"excludes exactly" part fails: NUL-containing paths make distinct path sets
collide on one dismissal key, see the counterexample.) -/
theorem claim_C6_dismissal_cache_frame (st : CMState) (dism : List (List String))
    (env : ScanEnv) (fp : String) (s : DuplicateReviewerSettings) (now : ℕ)
    (hd : ∀ d ∈ dism, d ≠ [] ∧ ∀ p ∈ d, '\x00' ∉ p.data) :
    alistGet (startDuplicateReviewMiss st dism env fp s now false).1.entries fp =
      some (putEntry fp (collectMarkdownFiles env fp s.ignoredFolders)
        (scanForDuplicates env fp s s.enableContentSimilarity false) s now) ∧
    (startDuplicateReviewMiss st dism env fp s now false).2 =
      some (filterDismissedGroups dism
        (scanForDuplicates env fp s s.enableContentSimilarity false)) ∧
    (∀ g ∈ scanForDuplicates env fp s s.enableContentSimilarity false,
      g.files ≠ [] → (∀ f ∈ g.files, '\x00' ∉ f.path.data) →
      (g ∈ filterDismissedGroups dism
          (scanForDuplicates env fp s s.enableContentSimilarity false) ↔
        ¬ ∃ d ∈ dism, sortStrings d = sortStrings (g.files.map (fun f => f.path)))) := by
  unfold startDuplicateReviewMiss
  rw [if_neg (by simp)]
  refine ⟨?_, rfl, ?_⟩
  · rw [clearDirty_entries, cachePut_entries]
    exact alistGet_set_self _ _ _
  · intro g hg hne hnul
    unfold filterDismissedGroups
    rw [List.mem_filter]
    have hmap_ne : g.files.map (fun f => f.path) ≠ [] := by
      intro h
      exact hne (List.map_eq_nil_iff.mp h)
    have hmap_nul : ∀ p ∈ g.files.map (fun f => f.path), '\x00' ∉ p.data := by
      intro p hp
      obtain ⟨f, hf, he⟩ := List.mem_map.mp hp
      rw [← he]
      exact hnul f hf
    constructor
    · rintro ⟨-, hb⟩
      intro hex
      rw [(isDismissed_iff dism (g.files.map (fun f => f.path)) hmap_ne hmap_nul hd).mpr
        hex] at hb
      exact absurd hb (by simp)
    · intro hnex
      refine ⟨hg, ?_⟩
      cases hdm : isDismissed dism (g.files.map (fun f => f.path)) with
      | false => rfl
      | true =>
        exact absurd ((isDismissed_iff dism (g.files.map (fun f => f.path)) hmap_ne
          hmap_nul hd).mp hdm) hnex

def envC6 : ScanEnv :=
  { vault := [⟨"a\x00b", "Note", 1⟩, ⟨"c", "Note", 2⟩],
    exclusionRaw := fun _ => none,
    readContent := fun _ => none }

def envC6W : ScanEnv :=
  { vault := [⟨"a.md", "Note", 1⟩, ⟨"b.md", "Note", 2⟩],
    exclusionRaw := fun _ => none,
    readContent := fun _ => none }

def setScan : DuplicateReviewerSettings :=
  { titleSimilarityThreshold := ratDiv 1 2, enableContentSimilarity := false,
    contentSimilarityThreshold := ratDiv 7 10, contentCharsToAnalyze := 1000,
    ignoredFolders := [], commonPatterns := [], maxComparisonPanes := 3 }

/-- C6 counterexample to the unamended "excludes exactly" reading: the scan of
two NUL-containing paths yields one group with paths `["a\x00b", "c"]`; with
`[["a", "b\x00c"]]` as the stored dismissals the orchestrator displays nothing
(the group's key `"a\x00b\x00c"` collides with the stored key), yet the
group's sorted path list differs from the stored dismissed one. -/
theorem claim_C6_counterexample :
    (scanForDuplicates envC6 "/" setScan false false).map
      (fun g => g.files.map (fun f => f.path)) = [["a\x00b", "c"]] ∧
    (startDuplicateReviewMiss cmInit [["a", "b\x00c"]] envC6 "/" setScan 0 false).2 =
      some [] ∧
    sortStrings ["a\x00b", "c"] ≠ sortStrings ["a", "b\x00c"] :=
  ⟨by decide, by decide, by decide⟩

theorem claim_C6_witness :
    alistGet (startDuplicateReviewMiss cmInit [["a.md", "b.md"]] envC6W "/" setScan 0
        false).1.entries "/" =
      some (putEntry "/" (collectMarkdownFiles envC6W "/" setScan.ignoredFolders)
        (scanForDuplicates envC6W "/" setScan setScan.enableContentSimilarity false)
        setScan 0) ∧
    (startDuplicateReviewMiss cmInit [["a.md", "b.md"]] envC6W "/" setScan 0 false).2 =
      some (filterDismissedGroups [["a.md", "b.md"]]
        (scanForDuplicates envC6W "/" setScan setScan.enableContentSimilarity false)) ∧
    (∀ g ∈ scanForDuplicates envC6W "/" setScan setScan.enableContentSimilarity false,
      g.files ≠ [] → (∀ f ∈ g.files, '\x00' ∉ f.path.data) →
      (g ∈ filterDismissedGroups [["a.md", "b.md"]]
          (scanForDuplicates envC6W "/" setScan setScan.enableContentSimilarity false) ↔
        ¬ ∃ d ∈ [["a.md", "b.md"]],
          sortStrings d = sortStrings (g.files.map (fun f => f.path)))) :=
  claim_C6_dismissal_cache_frame cmInit [["a.md", "b.md"]] envC6W "/" setScan 0 (by decide)

end DupReview
